import Mathlib

/-!
Verification of the column-resolution engine of `tokio-postgres-extractor`.

The development shallowly embeds the code generated by the `Columns` and
`Extract` derive macros (`macros/src/column.rs`, `macros/src/extract.rs`)
together with the extraction entry points (`extractor/src/lib.rs`) and the
sequence adapters (`extractor/src/iter.rs`, `extractor/src/stream.rs`).

A record type is represented by its list of field bindings
(`ColumnIdentifier`), a database row by an ordered list of
(column-name, value) pairs.  Column and field names are byte strings,
modelled as `List Nat`.
-/

namespace TPE

/-- A column or field name as a byte string (`str::as_bytes` in the source). -/
abbrev BName := List Nat

/-- `ColumnIdentifier` from `macros/src/column.rs`: a field is bound either to
an explicit column index or to a column name to be resolved at runtime. -/
inductive ColumnIdentifier where
  | index : Nat → ColumnIdentifier
  | name : BName → ColumnIdentifier
deriving DecidableEq, Repr

/-- A database row: an ordered sequence of named columns with values. -/
structure Row (V : Type) where
  cols : List (BName × V)

/-- The ordered list of column names of a row (`row.columns()` names). -/
def Row.names {V : Type} (r : Row V) : List BName := r.cols.map Prod.fst

/-- Positional typed decode: `row.get(i)`.  `none` models the value-decode
panic of `tokio_postgres::Row::get` (out-of-range position / bad value). -/
def Row.get {V : Type} (r : Row V) (i : Nat) : Option V :=
  (r.cols.get? i).map Prod.snd

/-- The `!0` (all-ones `usize`) marker used by the generated code for a
not-yet-resolved field entry. -/
def sentinel : Nat := 2 ^ 64 - 1

/-- Errors with which the generated code panics. -/
inductive ExtractError where
  | MissingColumn : BName → ExtractError
  | unreachableCode : ExtractError
deriving DecidableEq, Repr

/-- The name literals of the name-bound fields, in field order. -/
def namesOf (fields : List ColumnIdentifier) : List BName :=
  fields.filterMap (fun f =>
    match f with
    | .name n => some n
    | .index _ => none)

/-- `num_unique_names` of `columns_impl`: the number of distinct bound names. -/
def numUniqueNames (fields : List ColumnIdentifier) : Nat :=
  (namesOf fields).dedup.length

/-- One pass over the indexed fields building the first-occurrence table and
the repeats table, mirroring the `Entry::Vacant` / `Entry::Occupied` loop of
`columns_impl`.  `seen` accumulates (name, first field index) pairs. -/
def fieldTablesE : List (Nat × ColumnIdentifier) → List (BName × Nat) →
    List (BName × Nat) × List (Nat × Nat)
  | [], _ => ([], [])
  | (_, .index _) :: rest, seen => fieldTablesE rest seen
  | (i, .name n) :: rest, seen =>
    match seen.find? (fun q => q.1 == n) with
    | some q => ((fieldTablesE rest seen).1, (i, q.2) :: (fieldTablesE rest seen).2)
    | none =>
      ((n, i) :: (fieldTablesE rest ((n, i) :: seen)).1,
        (fieldTablesE rest ((n, i) :: seen)).2)

/-- First occurrences of each distinct bound name, as (name, field index). -/
def uniqList (fields : List ColumnIdentifier) : List (BName × Nat) :=
  (fieldTablesE fields.enum []).1

/-- The `repeats` assignments `columns[idx] = columns[original]` generated for
fields whose bound name occurred on an earlier field. -/
def repeatsList (fields : List ColumnIdentifier) : List (Nat × Nat) :=
  (fieldTablesE fields.enum []).2

/-- The `init` array of the generated code: literal index for `Index`-bound
fields, the `!0` sentinel for `Name`-bound fields. -/
def initEntries (fields : List ColumnIdentifier) : List Nat :=
  fields.map (fun f =>
    match f with
    | .index i => i
    | .name _ => sentinel)

/-- A fixed-width window `&name[start..start+w]` within a name. -/
def window (start w : Nat) (b : BName) : BName := (b.drop start).take w

/-- Little-endian decoding of a byte window (`uXX::from_le_bytes`). -/
def leDecode : BName → Nat
  | [] => 0
  | b :: bs => b + 256 * leDecode bs

/-- The `HashSet` distinctness check of the window search: all byte windows
pairwise distinct. -/
def allDistinct : List BName → Bool
  | [] => true
  | x :: xs => (!(xs.contains x)) && allDistinct xs

/-- Whether the window at `st` of width `w` is distinct across a length
group. -/
def windowsOk (st w : Nat) (g : List (BName × Nat)) : Bool :=
  allDistinct (g.map (fun p => window st w p.1))

/-- The inner loop `for start in 0..=len - sub_len` of the window search:
the first offset at which the window is distinct across the group. -/
def findStart (len w : Nat) (g : List (BName × Nat)) : Option Nat :=
  (List.range (len - w + 1)).find? (fun st => windowsOk st w g)

/-- Outcome of `generate_length_group_body` for one length group. -/
inductive GroupPlan where
  | window : Nat → Nat → GroupPlan
  | fallback : GroupPlan
  | panicked : GroupPlan
deriving DecidableEq, Repr

/-- The width loop `for sub_len_shift in 0..4` of the window search.  When a
width exceeds the name length, the source computes `len - sub_len` on `usize`,
which underflows: the derive macro panics (overflow panic in debug builds, a
slice-out-of-range panic in release builds).  This is modelled by
`GroupPlan.panicked`. -/
def searchWidths (len : Nat) (g : List (BName × Nat)) : List Nat → GroupPlan
  | [] => .fallback
  | w :: ws =>
    if len < w then .panicked
    else
      match findStart len w g with
      | some st => .window st w
      | none => searchWidths len g ws

/-- `generate_length_group_body`: groups with a single name, or whose name
length is exactly 1, 2, 4 or 8 bytes, use the direct-equality fallback;
otherwise the discriminator-window search runs over widths 1, 2, 4, 8. -/
def planGroup (len : Nat) (g : List (BName × Nat)) : GroupPlan :=
  if g.length = 1 ∨ len = 1 ∨ len = 2 ∨ len = 4 ∨ len = 8 then .fallback
  else searchWidths len g [1, 2, 4, 8]

/-- `generate_fallback_length_group_body`: direct full-name equality against
each candidate, first match wins, otherwise `continue` (`none`). -/
def fallbackDispatch : List (BName × Nat) → BName → Option Nat
  | [], _ => none
  | p :: rest, s => if s = p.1 then some p.2 else fallbackDispatch rest s

/-- The generated discriminator dispatch: decode the window of the column name,
compare against each candidate's decoded window constant in branch order, and
on a discriminator hit confirm with a full-name equality check. -/
def discDispatch (st w : Nat) : List (BName × Nat) → BName → Option Nat
  | [], _ => none
  | p :: rest, s =>
    if leDecode (window st w p.1) = leDecode (window st w s) then
      (if s = p.1 then some p.2 else none)
    else discDispatch st w rest s

/-- The generated body for one length group applied to a column name. -/
def groupBody (len : Nat) (g : List (BName × Nat)) (s : BName) : Option Nat :=
  match planGroup len g with
  | .window st w => discDispatch st w g s
  | .fallback => fallbackDispatch g s
  | .panicked => none

/-- Byte-lexicographic comparison of names (the `Ord` used by
`names.sort_by_key`). -/
def nameLe : BName → BName → Bool
  | [], _ => true
  | _ :: _, [] => false
  | a :: as, b :: bs => if a < b then true else if b < a then false else nameLe as bs

/-- Insertion into a sorted list (helper for the deterministic sorts the
generator performs on `HashMap` contents). -/
def insertSortedBy {α : Type} (le : α → α → Bool) (x : α) : List α → List α
  | [] => [x]
  | y :: ys => if le x y then x :: y :: ys else y :: insertSortedBy le x ys

/-- Insertion sort (the relative order is irrelevant to the semantics; the
source sorts only to make generation deterministic). -/
def sortBy {α : Type} (le : α → α → Bool) : List α → List α
  | [] => []
  | x :: xs => insertSortedBy le x (sortBy le xs)

/-- Sort a length group by name (`names.sort_by_key(|v| v.0)`). -/
def sortByName (g : List (BName × Nat)) : List (BName × Nat) :=
  sortBy (fun p q => nameLe p.1 q.1) g

/-- Sort lengths ascending (`names.sort_by_key(|n| n.0)`). -/
def sortNat (l : List Nat) : List Nat :=
  sortBy (fun a b => a ≤ b) l

/-- The outer `match name.len()` jump table: the distinct name lengths, each
with its (sorted) group of (name, first field index) candidates. -/
def lengthGroups (u : List (BName × Nat)) : List (Nat × List (BName × Nat)) :=
  (sortNat ((u.map (fun p => p.1.length)).dedup)).map
    (fun len => (len, sortByName (u.filter (fun p => p.1.length == len))))

/-- The full two-level dispatch of the generated resolution loop: route by
column-name length, then through the group body. -/
def dispatch (u : List (BName × Nat)) (s : BName) : Option Nat :=
  match (lengthGroups u).find? (fun p => p.1 == s.length) with
  | none => none
  | some p => groupBody p.1 p.2 s

/-- Position of the first column with the given name (the semantics of a
linear name scan over `row.columns()`). -/
def findColumn {V : Type} (n : BName) : List (BName × V) → Option Nat
  | [] => none
  | c :: rest => if c.1 = n then some 0 else (findColumn n rest).map (· + 1)

/-- The generated resolution loop over the row's columns: dispatch each column
name, record the column position into a still-unresolved entry, decrement
`todo`, and break once every distinct name is resolved. -/
def scanLoop {V : Type} (d : BName → Option Nat) :
    List (BName × V) → Nat → List Nat → Nat → List Nat × Nat
  | [], _, entries, todo => (entries, todo)
  | c :: rest, colIdx, entries, todo =>
    match d c.1 with
    | none => scanLoop d rest (colIdx + 1) entries todo
    | some idx =>
      if entries.getD idx 0 = sentinel then
        if todo - 1 = 0 then (entries.set idx colIdx, 0)
        else scanLoop d rest (colIdx + 1) (entries.set idx colIdx) (todo - 1)
      else scanLoop d rest (colIdx + 1) entries todo

/-- The generated `columns[idx] = columns[original];` assignments for fields
repeating an earlier field's bound name. -/
def applyRepeats : List (Nat × Nat) → List Nat → List Nat
  | [], e => e
  | t :: rest, e => applyRepeats rest (e.set t.1 (e.getD t.2 0))

/-- `Columns::columns` as generated by `columns_impl`, by case on the number
of distinct bound names.  `Except.error` models the generated
`panic_any` calls. -/
def buildColumns {V : Type} (fields : List ColumnIdentifier) (row : Row V) :
    Except ExtractError (List Nat) :=
  if numUniqueNames fields = 0 then
    .ok (fields.filterMap (fun f =>
      match f with
      | .index i => some i
      | .name _ => none))
  else if numUniqueNames fields = 1 then
    match (namesOf fields).head? with
    | none => .error .unreachableCode
    | some thename =>
      match findColumn thename row.cols with
      | some j => .ok (fields.map (fun f =>
          match f with
          | .index i => i
          | .name _ => j))
      | none => .error (.MissingColumn thename)
  else
    match scanLoop (dispatch (uniqList fields)) row.cols 0 (initEntries fields)
        (numUniqueNames fields) with
    | (entries, todo) =>
      if todo > 0 then
        match (uniqList fields).find? (fun p => entries.getD p.2 0 == sentinel) with
        | some p => .error (.MissingColumn p.1)
        | none => .error .unreachableCode
      else .ok (applyRepeats (repeatsList fields) entries)

/-- `Extract::extract_with_columns` as generated by `extract_impl`: read each
field's value positionally through the index array. -/
def extractWithColumns {V : Type} (cols : List Nat) (row : Row V) :
    List (Option V) :=
  cols.map row.get

/-- `Extract::extract`: with a cached index array, extract directly; with an
empty slot, build the index array from this row, store it, and extract.
The returned pair is (slot after the call, extracted record). -/
def extract {V : Type} (fields : List ColumnIdentifier)
    (slot : Option (List Nat)) (row : Row V) :
    Except ExtractError (Option (List Nat) × List (Option V)) :=
  match slot with
  | some c => .ok (some c, extractWithColumns c row)
  | none =>
    match buildColumns fields row with
    | .ok c => .ok (some c, extractWithColumns c row)
    | .error e => .error e

/-- `Extract::extract_once`: `Self::extract(&mut None, row)`, discarding the
index array. -/
def extractOnce {V : Type} (fields : List ColumnIdentifier) (row : Row V) :
    Except ExtractError (List (Option V)) :=
  match extract fields none row with
  | .ok p => .ok p.2
  | .error e => .error e

/-- Running `ExtractIter` / `ExtractIterRef` (`iter.rs`) to exhaustion over a
finite source of rows: each `next()` is `T::extract(&mut self.columns, row)`.
Returns the final cache slot and the extracted records in source order. -/
def runExtractIter {V : Type} (fields : List ColumnIdentifier)
    (slot : Option (List Nat)) :
    List (Row V) → Except ExtractError (Option (List Nat) × List (List (Option V)))
  | [] => .ok (slot, [])
  | r :: rest =>
    match extract fields slot r with
    | .error e => .error e
    | .ok p =>
      match runExtractIter fields p.1 rest with
      | .error e => .error e
      | .ok q => .ok (q.1, p.2 :: q.2)

/-- Running `ExtractStream` / `ExtractStreamMut` (`stream.rs`) over a finite
source of row results: `poll_next` maps `Ok` rows through
`T::extract(&mut self.columns, row)` and passes source errors through. -/
def runExtractStream {V E : Type} (fields : List ColumnIdentifier)
    (slot : Option (List Nat)) :
    List (Except E (Row V)) →
      Except ExtractError (Option (List Nat) × List (Except E (List (Option V))))
  | [] => .ok (slot, [])
  | (Except.error e) :: rest =>
    match runExtractStream fields slot rest with
    | .ok p => .ok (p.1, .error e :: p.2)
    | .error pe => .error pe
  | (Except.ok r) :: rest =>
    match extract fields slot r with
    | .error pe => .error pe
    | .ok p =>
      match runExtractStream fields p.1 rest with
      | .ok q => .ok (q.1, .ok p.2 :: q.2)
      | .error pe => .error pe

/-- Wellformedness of a byte string: every byte below 256. -/
def wfName (n : BName) : Bool := n.all (fun b => b < 256)

/-- All name-bound field names are genuine byte strings. -/
def wfFieldsB (fields : List ColumnIdentifier) : Bool :=
  fields.all (fun f =>
    match f with
    | .name n => wfName n
    | .index _ => true)

/-- Code generation succeeds: no length group makes the discriminator-window
search panic. -/
def genOkB (fields : List ColumnIdentifier) : Bool :=
  (lengthGroups (uniqList fields)).all (fun p =>
    match planGroup p.1 p.2 with
    | .panicked => false
    | _ => true)

/-- The first (in field order) distinct bound name that occurs in no column of
the row. -/
def firstMissing {V : Type} (fields : List ColumnIdentifier) (row : Row V) :
    Option BName :=
  ((uniqList fields).find? (fun p => !(row.names.contains p.1))).map Prod.fst

/-- Looking a name up directly in the row: the value of the first column with
that name (the semantics of `row.get::<&str, _>(name)`). -/
def valueAt {V : Type} (n : BName) (row : Row V) : Option V :=
  (row.cols.find? (fun c => c.1 == n)).map Prod.snd

end TPE

instance {ε α : Type} [DecidableEq ε] [DecidableEq α] : DecidableEq (Except ε α) := fun a b =>
  match a, b with
  | .ok x, .ok y =>
    if h : x = y then .isTrue (by rw [h])
    else .isFalse (fun hh => h (by injection hh))
  | .error x, .error y =>
    if h : x = y then .isTrue (by rw [h])
    else .isFalse (fun hh => h (by injection hh))
  | .ok _, .error _ => .isFalse (fun hh => Except.noConfusion hh)
  | .error _, .ok _ => .isFalse (fun hh => Except.noConfusion hh)

namespace TPE

/-! ## Generic list utilities -/

theorem getD_set_self {l : List Nat} {i : Nat} (a d : Nat) (h : i < l.length) :
    (l.set i a).getD i d = a := by
  induction l generalizing i with
  | nil => simp at h
  | cons x xs ih =>
    cases i with
    | zero => simp [List.set, List.getD]
    | succ j =>
      simp only [List.set, List.length_cons] at h ⊢
      exact ih (by omega)

theorem getD_set_ne {l : List Nat} {i j : Nat} (a d : Nat) (h : i ≠ j) :
    (l.set i a).getD j d = l.getD j d := by
  induction l generalizing i j with
  | nil => simp [List.set]
  | cons x xs ih =>
    cases i with
    | zero =>
      cases j with
      | zero => exact absurd rfl h
      | succ j2 => simp [List.set, List.getD]
    | succ i2 =>
      cases j with
      | zero => simp [List.set, List.getD]
      | succ j2 =>
        simp only [List.set, List.getD]
        exact ih (fun hh => h (by rw [hh]))

theorem find?_congr {α : Type} {p q : α → Bool} {l : List α}
    (h : ∀ x ∈ l, p x = q x) : l.find? p = l.find? q := by
  induction l with
  | nil => rfl
  | cons x xs ih =>
    have hx := h x (by simp)
    simp only [List.find?_cons, ← hx]
    cases p x with
    | true => rfl
    | false => exact ih (fun y hy => h y (by simp [hy]))

theorem find?_name_eq_of_mem {l : List (BName × Nat)}
    (hnd : (l.map Prod.fst).Nodup) {p : BName × Nat} (hp : p ∈ l) :
    l.find? (fun q => q.1 == p.1) = some p := by
  induction l with
  | nil => simp at hp
  | cons x xs ih =>
    rcases List.mem_cons.1 hp with h | h
    · subst h
      simp [List.find?_cons]
    · have hx : (x.1 == p.1) = false := by
        rw [Bool.eq_false_iff]
        intro hbe
        have hxp : x.1 = p.1 := by simpa [beq_iff_eq] using hbe
        have : x.1 ∈ xs.map Prod.fst := hxp ▸ List.mem_map.2 ⟨p, h, rfl⟩
        exact (List.nodup_cons.1 (by simpa using hnd)).1 this
      simp only [List.find?_cons, hx]
      exact ih (List.nodup_cons.1 (by simpa using hnd)).2 h

theorem find?_name_eq_none {l : List (BName × Nat)} {s : BName}
    (h : s ∉ l.map Prod.fst) : l.find? (fun q => q.1 == s) = none := by
  rw [List.find?_eq_none]
  intro q hq hbe
  exact h (List.mem_map.2 ⟨q, hq, by simpa [beq_iff_eq] using hbe⟩)

theorem find?_map_pairs {β : Type} (L : List Nat) (h : Nat → β) (t : Nat) :
    ((L.map (fun len => (len, h len))).find? (fun p => p.1 == t)) =
      (L.find? (fun l => l == t)).map (fun l => (l, h l)) := by
  induction L with
  | nil => rfl
  | cons x xs ih =>
    simp only [List.map_cons, List.find?_cons]
    cases hx : (x == t) with
    | true => rfl
    | false => exact ih

theorem find?_beq_self (L : List Nat) (t : Nat) :
    L.find? (fun l => l == t) = if t ∈ L then some t else none := by
  induction L with
  | nil => rfl
  | cons x xs ih =>
    simp only [List.find?_cons]
    by_cases hx : x = t
    · subst hx; simp
    · have hbe : (x == t) = false := by simpa using hx
      have htx : ¬t = x := fun h => hx h.symm
      rw [hbe, ih]
      simp [List.mem_cons, htx]

/-! ## Sorting is a permutation -/

theorem insertSortedBy_perm {α : Type} (le : α → α → Bool) (x : α) (l : List α) :
    (insertSortedBy le x l).Perm (x :: l) := by
  induction l with
  | nil => exact List.Perm.refl _
  | cons y ys ih =>
    simp only [insertSortedBy]
    by_cases h : le x y = true
    · simp [h]
    · simp only [h, if_false]
      exact (ih.cons y).trans (List.Perm.swap x y ys)

theorem sortBy_perm {α : Type} (le : α → α → Bool) (l : List α) :
    (sortBy le l).Perm l := by
  induction l with
  | nil => exact List.Perm.refl _
  | cons x xs ih =>
    exact (insertSortedBy_perm le x (sortBy le xs)).trans (ih.cons x)

theorem sortByName_perm (g : List (BName × Nat)) : (sortByName g).Perm g :=
  sortBy_perm _ g

theorem sortNat_perm (l : List Nat) : (sortNat l).Perm l :=
  sortBy_perm _ l

/-! ## findColumn -/

theorem findColumn_eq_none {V : Type} {n : BName} {cols : List (BName × V)} :
    findColumn n cols = none ↔ n ∉ cols.map Prod.fst := by
  induction cols with
  | nil => simp [findColumn]
  | cons c rest ih =>
    simp only [findColumn, List.map_cons, List.mem_cons]
    by_cases h : c.1 = n
    · simp [h]
    · simp only [h, if_false]
      rw [Option.map_eq_none', ih]
      constructor
      · intro hn hc
        rcases hc with hc | hc
        · exact h hc.symm
        · exact hn hc
      · intro hn hc
        exact hn (Or.inr hc)

theorem findColumn_spec {V : Type} {n : BName} {cols : List (BName × V)} {j : Nat} :
    findColumn n cols = some j →
      j < cols.length ∧ (cols.get? j).map Prod.fst = some n := by
  induction cols generalizing j with
  | nil => intro h; simp [findColumn] at h
  | cons c rest ih =>
    intro h
    simp only [findColumn] at h
    by_cases hc : c.1 = n
    · simp only [hc, if_true] at h
      cases h
      simp [hc]
    · simp only [hc, if_false] at h
      rcases Option.map_eq_some'.1 h with ⟨j2, hj2, hj⟩
      rcases ih hj2 with ⟨hl, hg⟩
      subst hj
      constructor
      · simpa using Nat.succ_lt_succ hl
      · simpa using hg

theorem findColumn_value_list {V : Type} (n : BName) (cols : List (BName × V)) :
    (match findColumn n cols with
      | some j => (cols.get? j).map Prod.snd
      | none => none) = (cols.find? (fun c => c.1 == n)).map Prod.snd := by
  induction cols with
  | nil => simp [findColumn]
  | cons c rest ih =>
    by_cases h : c.1 = n
    · simp [findColumn, h, List.find?_cons]
    · have hbe : (c.1 == n) = false := by simpa using h
      simp only [findColumn, h, if_false, List.find?_cons, hbe]
      cases hfc : findColumn n rest with
      | none => simpa [hfc] using ih
      | some j2 => simpa [hfc] using ih

theorem findColumn_value {V : Type} (n : BName) (row : Row V) :
    (match findColumn n row.cols with
      | some j => Row.get row j
      | none => none) = valueAt n row := by
  unfold valueAt Row.get
  exact findColumn_value_list n row.cols

/-! ## Little-endian decoding and windows -/

theorem leDecode_inj : ∀ (a b : BName), a.length = b.length →
    (∀ x ∈ a, x < 256) → (∀ x ∈ b, x < 256) → leDecode a = leDecode b → a = b := by
  intro a
  induction a with
  | nil =>
    intro b hlen _ _ _
    cases b with
    | nil => rfl
    | cons y ys => simp at hlen
  | cons x xs ih =>
    intro b hlen ha hb hd
    cases b with
    | nil => simp at hlen
    | cons y ys =>
      simp only [leDecode] at hd
      have hx : x < 256 := ha x (by simp)
      have hy : y < 256 := hb y (by simp)
      have hxy : x = y ∧ leDecode xs = leDecode ys := by omega
      have hrest : xs = ys := ih ys (by simpa using hlen)
        (fun z hz => ha z (by simp [hz])) (fun z hz => hb z (by simp [hz])) hxy.2
      rw [hxy.1, hrest]

theorem window_length {st w : Nat} {b : BName} (h : st + w ≤ b.length) :
    (window st w b).length = w := by
  simp only [window, List.length_take, List.length_drop]
  omega

theorem window_mem {st w : Nat} {b : BName} {x : Nat} (h : x ∈ window st w b) :
    x ∈ b :=
  ((List.take_sublist _ _).trans (List.drop_sublist _ _)).mem h

theorem wfName_window {st w : Nat} {b : BName} (h : wfName b = true) :
    ∀ x ∈ window st w b, x < 256 := by
  intro x hx
  have := List.all_eq_true.1 h x (window_mem hx)
  simpa using this

theorem allDistinct_head_not_mem {x : BName} {xs : List BName}
    (h : allDistinct (x :: xs) = true) : x ∉ xs := by
  simp only [allDistinct, Bool.and_eq_true, Bool.not_eq_true'] at h
  intro hx
  have : xs.contains x = true := List.elem_iff.2 hx
  rw [this] at h
  exact Bool.noConfusion h.1

theorem allDistinct_tail {x : BName} {xs : List BName}
    (h : allDistinct (x :: xs) = true) : allDistinct xs = true := by
  simp only [allDistinct, Bool.and_eq_true] at h
  exact h.2

end TPE

namespace TPE

/-! ## The generated group dispatch is a direct name lookup -/

theorem fallbackDispatch_eq_find (g : List (BName × Nat)) (s : BName) :
    fallbackDispatch g s = (g.find? (fun p => p.1 == s)).map Prod.snd := by
  induction g with
  | nil => rfl
  | cons p rest ih =>
    simp only [fallbackDispatch, List.find?_cons]
    by_cases h : s = p.1
    · simp [h]
    · have hbe : (p.1 == s) = false := by
        simp only [beq_eq_false_iff_ne, ne_eq]
        exact fun hh => h hh.symm
      simp [h, hbe, ih]

theorem searchWidths_spec (len : Nat) (g : List (BName × Nat)) :
    ∀ (ws : List Nat) (st w : Nat), searchWidths len g ws = .window st w →
      w ≤ len ∧ st + w ≤ len ∧ windowsOk st w g = true := by
  intro ws
  induction ws with
  | nil =>
    intro st w h
    simp only [searchWidths] at h
    exact absurd h (by simp)
  | cons w0 rest ih =>
    intro st w h
    simp only [searchWidths] at h
    by_cases hl : len < w0
    · rw [if_pos hl] at h
      exact absurd h (by simp)
    · rw [if_neg hl] at h
      cases hfs : findStart len w0 g with
      | some st0 =>
        rw [hfs] at h
        injection h with h1 h2
        have hfs2 : (List.range (len - w0 + 1)).find?
            (fun st => windowsOk st w0 g) = some st0 := hfs
        have hmem := List.mem_of_find?_eq_some hfs2
        have hok : windowsOk st0 w0 g = true := by
          simpa using List.find?_some hfs2
        have hlt : st0 < len - w0 + 1 := List.mem_range.1 hmem
        subst h1
        subst h2
        exact ⟨by omega, by omega, hok⟩
      | none =>
        rw [hfs] at h
        exact ih st w h

theorem planGroup_window {len : Nat} {g : List (BName × Nat)} {st w : Nat}
    (h : planGroup len g = .window st w) :
    w ≤ len ∧ st + w ≤ len ∧ windowsOk st w g = true := by
  unfold planGroup at h
  by_cases hc : g.length = 1 ∨ len = 1 ∨ len = 2 ∨ len = 4 ∨ len = 8
  · rw [if_pos hc] at h
    exact absurd h (by simp)
  · rw [if_neg hc] at h
    exact searchWidths_spec len g _ st w h

theorem discDispatch_eq_find {len st w : Nat} {g : List (BName × Nat)} {s : BName}
    (hlen : ∀ p ∈ g, p.1.length = len) (hwf : ∀ p ∈ g, wfName p.1 = true)
    (hw : windowsOk st w g = true) (hstw : st + w ≤ len) (hs : s.length = len) :
    discDispatch st w g s = (g.find? (fun p => p.1 == s)).map Prod.snd := by
  induction g with
  | nil => rfl
  | cons p rest ih =>
    have hpl : p.1.length = len := hlen p (by simp)
    have hplw : (window st w p.1).length = w := window_length (by rw [hpl]; exact hstw)
    have hsw : (window st w s).length = w := window_length (by rw [hs]; exact hstw)
    have hwAll : allDistinct
        (window st w p.1 :: rest.map (fun q => window st w q.1)) = true := by
      simpa [windowsOk] using hw
    have hwTail : windowsOk st w rest = true := by
      simpa [windowsOk] using allDistinct_tail hwAll
    have hwHead : window st w p.1 ∉ rest.map (fun q => window st w q.1) :=
      allDistinct_head_not_mem hwAll
    simp only [discDispatch, List.find?_cons]
    by_cases hd : leDecode (window st w p.1) = leDecode (window st w s)
    · rw [if_pos hd]
      by_cases he : s = p.1
      · simp [he]
      · have hbe : (p.1 == s) = false := by
          simp only [beq_eq_false_iff_ne, ne_eq]
          exact fun hh => he hh.symm
        rw [if_neg he, hbe]
        have hnone : rest.find? (fun q => q.1 == s) = none := by
          apply find?_name_eq_none
          intro hsr
          obtain ⟨q, hq, hqs⟩ := List.mem_map.1 hsr
          have hql : q.1.length = len := hlen q (by simp [hq])
          have hqlw : (window st w q.1).length = w :=
            window_length (by rw [hql]; exact hstw)
          have hdq : leDecode (window st w q.1) = leDecode (window st w p.1) := by
            rw [hqs, ← hd]
          have hwin : window st w q.1 = window st w p.1 :=
            leDecode_inj _ _ (by rw [hqlw, hplw])
              (wfName_window (hwf q (by simp [hq])))
              (wfName_window (hwf p (by simp))) hdq
          exact hwHead (hwin ▸ List.mem_map.2 ⟨q, hq, rfl⟩)
        rw [hnone]
        rfl
    · rw [if_neg hd]
      have he : s ≠ p.1 := fun hh => hd (by rw [hh])
      have hbe : (p.1 == s) = false := by
        simp only [beq_eq_false_iff_ne, ne_eq]
        exact fun hh => he hh.symm
      rw [hbe]
      exact ih (fun q hq => hlen q (by simp [hq])) (fun q hq => hwf q (by simp [hq]))
        hwTail

theorem groupBody_eq_find {len : Nat} {g : List (BName × Nat)} {s : BName}
    (hlen : ∀ p ∈ g, p.1.length = len) (hwf : ∀ p ∈ g, wfName p.1 = true)
    (hplan : planGroup len g ≠ .panicked) (hs : s.length = len) :
    groupBody len g s = (g.find? (fun p => p.1 == s)).map Prod.snd := by
  unfold groupBody
  cases hp : planGroup len g with
  | window st w =>
    rcases planGroup_window hp with ⟨_, hstw, hwok⟩
    exact discDispatch_eq_find hlen hwf hwok hstw hs
  | fallback => exact fallbackDispatch_eq_find g s
  | panicked => exact absurd hp hplan

theorem dispatch_eq_find {u : List (BName × Nat)} {s : BName}
    (hnd : (u.map Prod.fst).Nodup) (hwf : ∀ p ∈ u, wfName p.1 = true)
    (hgen : ∀ p ∈ lengthGroups u, planGroup p.1 p.2 ≠ .panicked) :
    dispatch u s = (u.find? (fun p => p.1 == s)).map Prod.snd := by
  have hfind : (lengthGroups u).find? (fun p => p.1 == s.length) =
      if s.length ∈ sortNat ((u.map (fun p => p.1.length)).dedup) then
        some (s.length, sortByName (u.filter (fun p => p.1.length == s.length)))
      else none := by
    unfold lengthGroups
    rw [find?_map_pairs, find?_beq_self]
    by_cases hmem : s.length ∈ sortNat ((u.map (fun p => p.1.length)).dedup)
    · rw [if_pos hmem, if_pos hmem]
      rfl
    · rw [if_neg hmem, if_neg hmem]
      rfl
  by_cases hmem : s.length ∈ sortNat ((u.map (fun p => p.1.length)).dedup)
  · rw [if_pos hmem] at hfind
    have hred : dispatch u s =
        groupBody s.length (sortByName (u.filter (fun p => p.1.length == s.length))) s := by
      unfold dispatch
      rw [hfind]
    rw [hred]
    set g0 := sortByName (u.filter (fun p => p.1.length == s.length)) with hg0
    have hperm : g0.Perm (u.filter (fun p => p.1.length == s.length)) :=
      sortByName_perm _
    have hlen : ∀ p ∈ g0, p.1.length = s.length := by
      intro p hp
      have := (List.mem_filter.1 (hperm.mem_iff.1 hp)).2
      simpa using this
    have hsubu : ∀ p ∈ g0, p ∈ u := by
      intro p hp
      exact (List.mem_filter.1 (hperm.mem_iff.1 hp)).1
    have hwfg : ∀ p ∈ g0, wfName p.1 = true := fun p hp => hwf p (hsubu p hp)
    have hndg : (g0.map Prod.fst).Nodup := by
      have h1 : ((u.filter (fun p => p.1.length == s.length)).map Prod.fst).Nodup :=
        ((List.filter_sublist u).map Prod.fst).nodup hnd
      exact ((hperm.map Prod.fst).nodup_iff).2 h1
    have hging : (s.length, g0) ∈ lengthGroups u := by
      unfold lengthGroups
      exact List.mem_map.2 ⟨s.length, hmem, rfl⟩
    have hplan : planGroup s.length g0 ≠ .panicked := hgen _ hging
    rw [groupBody_eq_find hlen hwfg hplan rfl]
    by_cases hsu : s ∈ u.map Prod.fst
    · obtain ⟨p, hpu, hps⟩ := List.mem_map.1 hsu
      have h1 : u.find? (fun q => q.1 == s) = some p := by
        rw [← hps]
        exact find?_name_eq_of_mem hnd hpu
      have hpfil : p ∈ u.filter (fun q => q.1.length == s.length) :=
        List.mem_filter.2 ⟨hpu, by simp [hps]⟩
      have hpg : p ∈ g0 := hperm.mem_iff.2 hpfil
      have h2 : g0.find? (fun q => q.1 == s) = some p := by
        rw [← hps]
        exact find?_name_eq_of_mem hndg hpg
      rw [h1, h2]
    · have h1 : u.find? (fun q => q.1 == s) = none := find?_name_eq_none hsu
      have h2 : g0.find? (fun q => q.1 == s) = none := by
        apply find?_name_eq_none
        intro hsg
        obtain ⟨q, hq, hqs⟩ := List.mem_map.1 hsg
        exact hsu (List.mem_map.2 ⟨q, hsubu q hq, hqs⟩)
      rw [h1, h2]
  · rw [if_neg hmem] at hfind
    have hred : dispatch u s = none := by
      unfold dispatch
      rw [hfind]
    rw [hred]
    have h1 : u.find? (fun q => q.1 == s) = none := by
      apply find?_name_eq_none
      intro hsu
      obtain ⟨p, hpu, hps⟩ := List.mem_map.1 hsu
      apply hmem
      rw [(sortNat_perm _).mem_iff, List.mem_dedup]
      exact List.mem_map.2 ⟨p, hpu, by rw [hps]⟩
    rw [h1]
    rfl

end TPE

namespace TPE

/-! ## Enumeration helpers -/

theorem mem_enum_iff {α : Type} {l : List α} {i : Nat} {a : α} :
    (i, a) ∈ l.enum ↔ l.get? i = some a := by
  constructor
  · intro h
    obtain ⟨n, hn⟩ := List.mem_iff_get?.1 h
    rw [List.get?_enum] at hn
    obtain ⟨b, hb, heq⟩ := Option.map_eq_some'.1 hn
    have h1 : n = i := congrArg Prod.fst heq
    have h2 : b = a := congrArg Prod.snd heq
    rw [← h1, ← h2]
    exact hb
  · intro h
    apply List.mem_iff_get?.2
    refine ⟨i, ?_⟩
    rw [List.get?_enum, h]
    rfl

theorem mem_enumFrom_fst_le {α : Type} :
    ∀ (l : List α) (n : Nat) (p : Nat × α), p ∈ List.enumFrom n l → n ≤ p.1 := by
  intro l
  induction l with
  | nil => intro n p h; simp at h
  | cons x xs ih =>
    intro n p h
    simp only [List.enumFrom, List.mem_cons] at h
    rcases h with h | h
    · rw [h]
    · exact Nat.le_of_succ_le (ih (n + 1) p h)

theorem pairwise_enumFrom {α : Type} :
    ∀ (l : List α) (n : Nat),
      List.Pairwise (fun p q : Nat × α => p.1 < q.1) (List.enumFrom n l) := by
  intro l
  induction l with
  | nil => intro n; simp
  | cons x xs ih =>
    intro n
    simp only [List.enumFrom]
    rw [List.pairwise_cons]
    constructor
    · intro q hq
      exact Nat.lt_of_lt_of_le (Nat.lt_succ_self n) (mem_enumFrom_fst_le xs (n + 1) q hq)
    · exact ih (n + 1)

theorem pairwise_enum {α : Type} (l : List α) :
    List.Pairwise (fun p q : Nat × α => p.1 < q.1) l.enum :=
  pairwise_enumFrom l 0

/-! ## The first-occurrence and repeats tables -/

theorem ft_u_mem :
    ∀ (L : List (Nat × ColumnIdentifier)) (seen : List (BName × Nat)),
      ∀ p ∈ (fieldTablesE L seen).1,
        (p.2, ColumnIdentifier.name p.1) ∈ L ∧ p.1 ∉ seen.map Prod.fst := by
  intro L
  induction L with
  | nil => intro seen p hp; simp [fieldTablesE] at hp
  | cons hd rest ih =>
    intro seen p hp
    obtain ⟨i, f⟩ := hd
    cases f with
    | index k =>
      simp only [fieldTablesE] at hp
      obtain ⟨h1, h2⟩ := ih seen p hp
      exact ⟨by simp [h1], h2⟩
    | name n =>
      cases hf : seen.find? (fun q => q.1 == n) with
      | some q =>
        simp only [fieldTablesE, hf] at hp
        obtain ⟨h1, h2⟩ := ih seen p hp
        exact ⟨by simp [h1], h2⟩
      | none =>
        simp only [fieldTablesE, hf] at hp
        rcases List.mem_cons.1 hp with h | h
        · subst h
          refine ⟨by simp, ?_⟩
          intro hn
          obtain ⟨q, hq, hqn⟩ := List.mem_map.1 hn
          have := List.find?_eq_none.1 hf q hq
          simp [hqn] at this
        · obtain ⟨h1, h2⟩ := ih ((n, i) :: seen) p h
          refine ⟨by simp [h1], ?_⟩
          intro hn
          exact h2 (by simp [hn])

theorem ft_u_names_nodup :
    ∀ (L : List (Nat × ColumnIdentifier)) (seen : List (BName × Nat)),
      ((fieldTablesE L seen).1.map Prod.fst).Nodup := by
  intro L
  induction L with
  | nil => intro seen; simp [fieldTablesE]
  | cons hd rest ih =>
    intro seen
    obtain ⟨i, f⟩ := hd
    cases f with
    | index k => simpa only [fieldTablesE] using ih seen
    | name n =>
      cases hf : seen.find? (fun q => q.1 == n) with
      | some q => simpa only [fieldTablesE, hf] using ih seen
      | none =>
        simp only [fieldTablesE, hf, List.map_cons]
        rw [List.nodup_cons]
        refine ⟨?_, ih ((n, i) :: seen)⟩
        intro hn
        obtain ⟨p, hp, hpn⟩ := List.mem_map.1 hn
        have h2 := (ft_u_mem rest ((n, i) :: seen) p hp).2
        exact h2 (by simp [hpn])

theorem ft_u_pairwise :
    ∀ (L : List (Nat × ColumnIdentifier)) (seen : List (BName × Nat)),
      List.Pairwise (fun a b : Nat × ColumnIdentifier => a.1 < b.1) L →
      List.Pairwise (fun p q : BName × Nat => p.2 < q.2) (fieldTablesE L seen).1 := by
  intro L
  induction L with
  | nil => intro seen _; simp [fieldTablesE]
  | cons hd rest ih =>
    intro seen hL
    obtain ⟨i, f⟩ := hd
    rw [List.pairwise_cons] at hL
    cases f with
    | index k => simpa only [fieldTablesE] using ih seen hL.2
    | name n =>
      cases hf : seen.find? (fun q => q.1 == n) with
      | some q => simpa only [fieldTablesE, hf] using ih seen hL.2
      | none =>
        simp only [fieldTablesE, hf]
        rw [List.pairwise_cons]
        refine ⟨?_, ih ((n, i) :: seen) hL.2⟩
        intro p hp
        have h1 := (ft_u_mem rest ((n, i) :: seen) p hp).1
        exact hL.1 (p.2, ColumnIdentifier.name p.1) h1

theorem ft_u_names_mem :
    ∀ (L : List (Nat × ColumnIdentifier)) (seen : List (BName × Nat)) (n : BName),
      n ∈ (fieldTablesE L seen).1.map Prod.fst ↔
        ((∃ i, (i, ColumnIdentifier.name n) ∈ L) ∧ n ∉ seen.map Prod.fst) := by
  intro L
  induction L with
  | nil =>
    intro seen n
    simp [fieldTablesE]
  | cons hd rest ih =>
    intro seen n
    obtain ⟨i, f⟩ := hd
    cases f with
    | index k =>
      simp only [fieldTablesE]
      rw [ih seen n]
      constructor
      · rintro ⟨⟨j, hj⟩, h2⟩
        exact ⟨⟨j, by simp [hj]⟩, h2⟩
      · rintro ⟨⟨j, hj⟩, h2⟩
        rcases List.mem_cons.1 hj with h | h
        · exact ColumnIdentifier.noConfusion (congrArg Prod.snd h)
        · exact ⟨⟨j, h⟩, h2⟩
    | name n0 =>
      cases hf : seen.find? (fun q => q.1 == n0) with
      | some q =>
        have hn0seen : n0 ∈ seen.map Prod.fst := by
          have hqmem := List.mem_of_find?_eq_some hf
          have hqeq : q.1 = n0 := by simpa using List.find?_some hf
          exact List.mem_map.2 ⟨q, hqmem, hqeq⟩
        simp only [fieldTablesE, hf]
        rw [ih seen n]
        by_cases hn : n = n0
        · subst hn
          constructor
          · rintro ⟨_, h2⟩
            exact absurd hn0seen h2
          · rintro ⟨_, h2⟩
            exact absurd hn0seen h2
        · constructor
          · rintro ⟨⟨j, hj⟩, h2⟩
            exact ⟨⟨j, by simp [hj]⟩, h2⟩
          · rintro ⟨⟨j, hj⟩, h2⟩
            rcases List.mem_cons.1 hj with h | h
            · have hh : ColumnIdentifier.name n = ColumnIdentifier.name n0 :=
                congrArg Prod.snd h
              have hnn : n = n0 := by injection hh
              exact absurd hnn hn
            · exact ⟨⟨j, h⟩, h2⟩
      | none =>
        have hn0seen : n0 ∉ seen.map Prod.fst := by
          intro hn
          obtain ⟨q, hq, hqn⟩ := List.mem_map.1 hn
          have := List.find?_eq_none.1 hf q hq
          simp [hqn] at this
        simp only [fieldTablesE, hf, List.map_cons, List.mem_cons]
        rw [ih ((n0, i) :: seen) n]
        by_cases hn : n = n0
        · subst hn
          simp only [true_or, true_iff]
          exact ⟨⟨i, by simp⟩, hn0seen⟩
        · simp only [hn, false_or]
          constructor
          · rintro ⟨⟨j, hj⟩, h2⟩
            refine ⟨⟨j, by simp [hj]⟩, ?_⟩
            intro hmem
            exact h2 (by simp [hmem])
          · rintro ⟨⟨j, hj⟩, h2⟩
            have h2b : n ∉ ((n0, i) :: seen).map Prod.fst := by
              simp only [List.map_cons, List.mem_cons]
              rintro (h | h)
              · exact hn h
              · exact h2 h
            rcases hj with h | h
            · have hh : ColumnIdentifier.name n = ColumnIdentifier.name n0 :=
                congrArg Prod.snd h
              have hnn : n = n0 := by injection hh
              exact absurd hnn hn
            · exact ⟨⟨j, h⟩, h2b⟩

end TPE

namespace TPE

theorem ft_r_mem :
    ∀ (L : List (Nat × ColumnIdentifier)) (seen : List (BName × Nat)),
      ∀ t ∈ (fieldTablesE L seen).2,
        ∃ n, (t.1, ColumnIdentifier.name n) ∈ L ∧
          ((n, t.2) ∈ seen ∨ (n, t.2) ∈ (fieldTablesE L seen).1) := by
  intro L
  induction L with
  | nil => intro seen t ht; simp [fieldTablesE] at ht
  | cons hd rest ih =>
    intro seen t ht
    obtain ⟨i, f⟩ := hd
    cases f with
    | index k =>
      simp only [fieldTablesE] at ht ⊢
      obtain ⟨n, h1, h2⟩ := ih seen t ht
      exact ⟨n, by simp [h1], h2⟩
    | name n0 =>
      cases hf : seen.find? (fun q => q.1 == n0) with
      | some q =>
        have hqmem : q ∈ seen := List.mem_of_find?_eq_some hf
        have hqeq : q.1 = n0 := by simpa using List.find?_some hf
        simp only [fieldTablesE, hf] at ht ⊢
        rcases List.mem_cons.1 ht with h | h
        · subst h
          refine ⟨n0, by simp, Or.inl ?_⟩
          have : (n0, q.2) = q := by rw [← hqeq]
          rw [this]
          exact hqmem
        · obtain ⟨n, h1, h2⟩ := ih seen t h
          exact ⟨n, by simp [h1], h2⟩
      | none =>
        simp only [fieldTablesE, hf] at ht ⊢
        obtain ⟨n, h1, h2⟩ := ih ((n0, i) :: seen) t ht
        refine ⟨n, by simp [h1], ?_⟩
        rcases h2 with h2 | h2
        · rcases List.mem_cons.1 h2 with h3 | h3
          · exact Or.inr (by simp [h3])
          · exact Or.inl h3
        · exact Or.inr (by simp [h2])

theorem ft_r_target_mem :
    ∀ (L : List (Nat × ColumnIdentifier)) (seen : List (BName × Nat)),
      ∀ t ∈ (fieldTablesE L seen).2, ∃ n, (t.1, ColumnIdentifier.name n) ∈ L := by
  intro L seen t ht
  obtain ⟨n, h1, _⟩ := ft_r_mem L seen t ht
  exact ⟨n, h1⟩

theorem ft_r_target_not_u :
    ∀ (L : List (Nat × ColumnIdentifier)) (seen : List (BName × Nat)),
      List.Pairwise (fun a b : Nat × ColumnIdentifier => a.1 < b.1) L →
      ∀ t ∈ (fieldTablesE L seen).2, t.1 ∉ (fieldTablesE L seen).1.map Prod.snd := by
  intro L
  induction L with
  | nil => intro seen _ t ht; simp [fieldTablesE] at ht
  | cons hd rest ih =>
    intro seen hL t ht
    obtain ⟨i, f⟩ := hd
    rw [List.pairwise_cons] at hL
    cases f with
    | index k =>
      simp only [fieldTablesE] at ht ⊢
      exact ih seen hL.2 t ht
    | name n0 =>
      cases hf : seen.find? (fun q => q.1 == n0) with
      | some q =>
        simp only [fieldTablesE, hf] at ht ⊢
        rcases List.mem_cons.1 ht with h | h
        · subst h
          intro hmem
          obtain ⟨p, hp, hps⟩ := List.mem_map.1 hmem
          have h1 := (ft_u_mem rest seen p hp).1
          have := hL.1 (p.2, ColumnIdentifier.name p.1) h1
          simp only at this
          omega
        · exact ih seen hL.2 t h
      | none =>
        simp only [fieldTablesE, hf] at ht ⊢
        intro hmem
        simp only [List.map_cons, List.mem_cons] at hmem
        rcases hmem with h | h
        · obtain ⟨n, hn⟩ := ft_r_target_mem rest ((n0, i) :: seen) t ht
          have := hL.1 (t.1, ColumnIdentifier.name n) hn
          simp only at this
          omega
        · exact ih ((n0, i) :: seen) hL.2 t ht h

theorem ft_r_pairwise :
    ∀ (L : List (Nat × ColumnIdentifier)) (seen : List (BName × Nat)),
      List.Pairwise (fun a b : Nat × ColumnIdentifier => a.1 < b.1) L →
      List.Pairwise (fun t s : Nat × Nat => t.1 < s.1) (fieldTablesE L seen).2 := by
  intro L
  induction L with
  | nil => intro seen _; simp [fieldTablesE]
  | cons hd rest ih =>
    intro seen hL
    obtain ⟨i, f⟩ := hd
    rw [List.pairwise_cons] at hL
    cases f with
    | index k => simpa only [fieldTablesE] using ih seen hL.2
    | name n0 =>
      cases hf : seen.find? (fun q => q.1 == n0) with
      | some q =>
        simp only [fieldTablesE, hf]
        rw [List.pairwise_cons]
        refine ⟨?_, ih seen hL.2⟩
        intro t ht
        obtain ⟨n, hn⟩ := ft_r_target_mem rest seen t ht
        exact hL.1 (t.1, ColumnIdentifier.name n) hn
      | none =>
        simpa only [fieldTablesE, hf] using ih ((n0, i) :: seen) hL.2

theorem ft_cover :
    ∀ (L : List (Nat × ColumnIdentifier)) (seen : List (BName × Nat)) (i : Nat)
      (n : BName), (i, ColumnIdentifier.name n) ∈ L →
      (n, i) ∈ (fieldTablesE L seen).1 ∨
        ∃ o, (i, o) ∈ (fieldTablesE L seen).2 ∧
          ((n, o) ∈ seen ∨ (n, o) ∈ (fieldTablesE L seen).1) := by
  intro L
  induction L with
  | nil => intro seen i n h; simp at h
  | cons hd rest ih =>
    intro seen i n h
    obtain ⟨j, f⟩ := hd
    cases f with
    | index k =>
      simp only [fieldTablesE]
      rcases List.mem_cons.1 h with h1 | h1
      · exact ColumnIdentifier.noConfusion (congrArg Prod.snd h1)
      · exact ih seen i n h1
    | name n0 =>
      cases hf : seen.find? (fun q => q.1 == n0) with
      | some q =>
        have hqmem : q ∈ seen := List.mem_of_find?_eq_some hf
        have hqeq : q.1 = n0 := by simpa using List.find?_some hf
        simp only [fieldTablesE, hf]
        rcases List.mem_cons.1 h with h1 | h1
        · have hij : i = j := congrArg Prod.fst h1
          have hnn : n = n0 := by
            have := congrArg Prod.snd h1
            injection this
          subst hij
          subst hnn
          refine Or.inr ⟨q.2, by simp, Or.inl ?_⟩
          have : (n, q.2) = q := by rw [← hqeq]
          rw [this]
          exact hqmem
        · rcases ih seen i n h1 with h2 | ⟨o, h2, h3⟩
          · exact Or.inl h2
          · exact Or.inr ⟨o, by simp [h2], h3⟩
      | none =>
        simp only [fieldTablesE, hf]
        rcases List.mem_cons.1 h with h1 | h1
        · have hij : i = j := congrArg Prod.fst h1
          have hnn : n = n0 := by
            have := congrArg Prod.snd h1
            injection this
          subst hij
          subst hnn
          exact Or.inl (by simp)
        · rcases ih ((n0, j) :: seen) i n h1 with h2 | ⟨o, h2, h3⟩
          · exact Or.inl (by simp [h2])
          · refine Or.inr ⟨o, h2, ?_⟩
            rcases h3 with h3 | h3
            · rcases List.mem_cons.1 h3 with h4 | h4
              · exact Or.inr (by simp [h4])
              · exact Or.inl h4
            · exact Or.inr (by simp [h3])

/-! ## Bridge lemmas for the top-level tables -/

theorem uniq_mem_get? {fields : List ColumnIdentifier} {p : BName × Nat}
    (hp : p ∈ uniqList fields) :
    fields.get? p.2 = some (ColumnIdentifier.name p.1) :=
  mem_enum_iff.1 (ft_u_mem fields.enum [] p hp).1

theorem uniq_names_nodup (fields : List ColumnIdentifier) :
    ((uniqList fields).map Prod.fst).Nodup :=
  ft_u_names_nodup fields.enum []

theorem uniq_idx_nodup (fields : List ColumnIdentifier) :
    ((uniqList fields).map Prod.snd).Nodup := by
  have h1 := ft_u_pairwise fields.enum [] (pairwise_enum fields)
  have h2 : List.Pairwise (fun p q : BName × Nat => p.2 ≠ q.2) (uniqList fields) :=
    h1.imp (fun h => Nat.ne_of_lt h)
  exact (List.pairwise_map).2 h2

theorem uniq_names_mem (fields : List ColumnIdentifier) (n : BName) :
    n ∈ (uniqList fields).map Prod.fst ↔ n ∈ namesOf fields := by
  unfold uniqList
  rw [ft_u_names_mem]
  simp only [List.map_nil, List.not_mem_nil, not_false_iff, and_true]
  constructor
  · rintro ⟨i, hi⟩
    have : fields.get? i = some (ColumnIdentifier.name n) := mem_enum_iff.1 hi
    have hmem : ColumnIdentifier.name n ∈ fields := List.get?_mem this
    exact List.mem_filterMap.2 ⟨ColumnIdentifier.name n, hmem, rfl⟩
  · intro hn
    obtain ⟨f, hf, hfn⟩ := List.mem_filterMap.1 hn
    have hf2 : f = ColumnIdentifier.name n := by
      cases f with
      | index k => simp at hfn
      | name m => simpa using congrArg (Option.map id) hfn
    subst hf2
    obtain ⟨i, hi⟩ := List.mem_iff_get?.1 hf
    exact ⟨i, mem_enum_iff.2 hi⟩

theorem uniq_length_eq (fields : List ColumnIdentifier) :
    (uniqList fields).length = numUniqueNames fields := by
  have h1 : ((uniqList fields).map Prod.fst).Nodup := uniq_names_nodup fields
  have h2 : ((namesOf fields).dedup).Nodup := List.nodup_dedup _
  have h3 : ∀ n, n ∈ (uniqList fields).map Prod.fst ↔ n ∈ (namesOf fields).dedup := by
    intro n
    rw [List.mem_dedup]
    exact uniq_names_mem fields n
  have hperm := (List.perm_ext_iff_of_nodup h1 h2).2 h3
  have hlen := hperm.length_eq
  simpa [numUniqueNames] using hlen

theorem uniq_wf {fields : List ColumnIdentifier} (hwf : wfFieldsB fields = true)
    {p : BName × Nat} (hp : p ∈ uniqList fields) : wfName p.1 = true := by
  have hget := uniq_mem_get? hp
  have hmem : ColumnIdentifier.name p.1 ∈ fields := List.get?_mem hget
  have := List.all_eq_true.1 hwf _ hmem
  simpa using this

theorem uniq_idx_lt {fields : List ColumnIdentifier} {p : BName × Nat}
    (hp : p ∈ uniqList fields) : p.2 < fields.length := by
  have hget := uniq_mem_get? hp
  rcases List.get?_eq_some.1 hget with ⟨h, _⟩
  exact h

theorem initEntries_length (fields : List ColumnIdentifier) :
    (initEntries fields).length = fields.length := by
  simp [initEntries]

theorem initEntries_get_name {fields : List ColumnIdentifier} {i : Nat} {n : BName}
    (h : fields.get? i = some (ColumnIdentifier.name n)) :
    (initEntries fields).getD i 0 = sentinel := by
  rw [List.getD_eq_get?]
  unfold initEntries
  rw [List.get?_map, h]
  rfl

theorem initEntries_get_index {fields : List ColumnIdentifier} {i k : Nat}
    (h : fields.get? i = some (ColumnIdentifier.index k)) :
    (initEntries fields).getD i 0 = k := by
  rw [List.getD_eq_get?]
  unfold initEntries
  rw [List.get?_map, h]
  rfl

theorem repeats_pairwise (fields : List ColumnIdentifier) :
    List.Pairwise (fun t s : Nat × Nat => t.1 < s.1) (repeatsList fields) :=
  ft_r_pairwise fields.enum [] (pairwise_enum fields)

theorem repeats_origin {fields : List ColumnIdentifier} {t : Nat × Nat}
    (ht : t ∈ repeatsList fields) :
    ∃ n, fields.get? t.1 = some (ColumnIdentifier.name n) ∧
      (n, t.2) ∈ uniqList fields := by
  obtain ⟨n, h1, h2⟩ := ft_r_mem fields.enum [] t ht
  rcases h2 with h2 | h2
  · simp at h2
  · exact ⟨n, mem_enum_iff.1 h1, h2⟩

theorem repeats_target_not_u {fields : List ColumnIdentifier} {t : Nat × Nat}
    (ht : t ∈ repeatsList fields) : t.1 ∉ (uniqList fields).map Prod.snd :=
  ft_r_target_not_u fields.enum [] (pairwise_enum fields) t ht

theorem field_cover {fields : List ColumnIdentifier} {i : Nat} {n : BName}
    (h : fields.get? i = some (ColumnIdentifier.name n)) :
    (n, i) ∈ uniqList fields ∨
      ∃ o, (i, o) ∈ repeatsList fields ∧ (n, o) ∈ uniqList fields := by
  have hmem : (i, ColumnIdentifier.name n) ∈ fields.enum := mem_enum_iff.2 h
  rcases ft_cover fields.enum [] i n hmem with h1 | ⟨o, h1, h2⟩
  · exact Or.inl h1
  · rcases h2 with h2 | h2
    · simp at h2
    · exact Or.inr ⟨o, h1, h2⟩

end TPE


namespace TPE

/-! ## Scan loop bookkeeping -/

/-- The `todo` counter as a function of the entry array: the number of
first-occurrence names whose entry still holds the sentinel. -/
def countSent (u : List (BName × Nat)) (entries : List Nat) : Nat :=
  u.countP (fun p => entries.getD p.2 0 == sentinel)

/-- The name-lookup function the generated dispatch refines. -/
def nameLookup (u : List (BName × Nat)) : BName → Option Nat :=
  fun s => (u.find? (fun p => p.1 == s)).map Prod.snd

theorem sentinel_pos : 0 < sentinel := by norm_num [sentinel]

theorem getD_sentinel_lt {entries : List Nat} {i : Nat}
    (h : entries.getD i 0 = sentinel) : i < entries.length := by
  by_contra hge
  rw [List.getD_eq_get?, List.get?_len_le (by omega)] at h
  simp only [Option.getD_none] at h
  have := sentinel_pos
  omega

theorem countSent_set {u : List (BName × Nat)} {entries : List Nat}
    {p0 : BName × Nat} {colIdx : Nat} (hndi : (u.map Prod.snd).Nodup)
    (hmem : p0 ∈ u) (hsent : entries.getD p0.2 0 = sentinel)
    (hcol : colIdx ≠ sentinel) :
    countSent u (entries.set p0.2 colIdx) = countSent u entries - 1 ∧
      1 ≤ countSent u entries := by
  have hlt : p0.2 < entries.length := getD_sentinel_lt hsent
  induction u with
  | nil => simp at hmem
  | cons q us ih =>
    rw [List.map_cons, List.nodup_cons] at hndi
    unfold countSent
    rw [List.countP_cons, List.countP_cons]
    by_cases hq : q = p0
    · subst hq
      have hcong : us.countP (fun p => (entries.set q.2 colIdx).getD p.2 0 == sentinel) =
          us.countP (fun p => entries.getD p.2 0 == sentinel) := by
        apply List.countP_congr
        intro r hr
        have hne : q.2 ≠ r.2 := by
          intro he
          exact hndi.1 (he ▸ List.mem_map.2 ⟨r, hr, rfl⟩)
        rw [getD_set_ne _ _ hne]
      have hnew : ((entries.set q.2 colIdx).getD q.2 0 == sentinel) = false := by
        rw [getD_set_self _ _ hlt]
        simpa using hcol
      have hold : (entries.getD q.2 0 == sentinel) = true := by simpa using hsent
      rw [hcong, hnew, hold]
      simp
    · have hp0us : p0 ∈ us := by
        rcases List.mem_cons.1 hmem with h | h
        · exact absurd h.symm hq
        · exact h
      have hne : p0.2 ≠ q.2 := by
        intro he
        exact hndi.1 (he ▸ List.mem_map.2 ⟨p0, hp0us, rfl⟩)
      obtain ⟨ih1, ih2⟩ := ih hndi.2 hp0us
      unfold countSent at ih1 ih2
      have hhead : (entries.set p0.2 colIdx).getD q.2 0 = entries.getD q.2 0 :=
        getD_set_ne _ _ hne
      rw [hhead]
      cases hb : (entries.getD q.2 0 == sentinel) with
      | true => simp only [if_true]; omega
      | false => simp only [Bool.false_eq_true, if_false]; omega

theorem findColumn_cons_shift {V : Type} {p1 : BName} {c : BName × V}
    {rest : List (BName × V)} (h : ¬c.1 = p1) (colIdx : Nat) :
    (match findColumn p1 (c :: rest) with
      | some r => colIdx + r
      | none => sentinel) =
    (match findColumn p1 rest with
      | some r => (colIdx + 1) + r
      | none => sentinel) := by
  have hfc : findColumn p1 (c :: rest) = (findColumn p1 rest).map (· + 1) := by
    show (if c.1 = p1 then some 0 else (findColumn p1 rest).map (· + 1)) =
      (findColumn p1 rest).map (· + 1)
    exact if_neg h
  rw [hfc]
  cases findColumn p1 rest with
  | none => rfl
  | some r =>
    show colIdx + (r + 1) = colIdx + 1 + r
    omega

theorem findColumn_cons_hit {V : Type} {p1 : BName} {c : BName × V}
    {rest : List (BName × V)} (h : c.1 = p1) :
    findColumn p1 (c :: rest) = some 0 := by
  show (if c.1 = p1 then some 0 else (findColumn p1 rest).map (· + 1)) = some 0
  exact if_pos h

theorem scanLoop_spec {V : Type} (u : List (BName × Nat))
    (hndf : (u.map Prod.fst).Nodup) (hndi : (u.map Prod.snd).Nodup) :
    ∀ (cols : List (BName × V)) (colIdx : Nat) (entries : List Nat),
      colIdx + cols.length ≤ sentinel →
      ∀ fin todoF,
        scanLoop (nameLookup u) cols colIdx entries (countSent u entries) =
          (fin, todoF) →
        fin.length = entries.length ∧
        (∀ p ∈ u, fin.getD p.2 0 =
          (if entries.getD p.2 0 = sentinel then
            (match findColumn p.1 cols with
              | some r => colIdx + r
              | none => sentinel)
          else entries.getD p.2 0)) ∧
        (∀ j, j ∉ u.map Prod.snd → fin.getD j 0 = entries.getD j 0) ∧
        todoF = countSent u fin := by
  intro cols
  induction cols with
  | nil =>
    intro colIdx entries hsb fin todoF hscan
    simp only [scanLoop] at hscan
    injection hscan with h1 h2
    subst h1
    subst h2
    refine ⟨rfl, ?_, fun j _ => rfl, rfl⟩
    intro p hp
    by_cases h : entries.getD p.2 0 = sentinel
    · rw [if_pos h, h]
      rfl
    · rw [if_neg h]
  | cons c rest ih =>
    intro colIdx entries hsb fin todoF hscan
    have hs2 : colIdx + 1 + rest.length ≤ sentinel := by
      simp only [List.length_cons] at hsb
      omega
    simp only [scanLoop] at hscan
    cases hd : nameLookup u c.1 with
    | none =>
      simp only [hd] at hscan
      have hnotin : c.1 ∉ u.map Prod.fst := by
        intro hmem
        obtain ⟨p, hp, hps⟩ := List.mem_map.1 hmem
        have hfind := find?_name_eq_of_mem hndf hp
        have hsome : nameLookup u c.1 = some p.2 := by
          unfold nameLookup
          rw [← hps, hfind]
          rfl
        rw [hd] at hsome
        exact Option.noConfusion hsome
      obtain ⟨c1, c2, c3, c4⟩ := ih (colIdx + 1) entries hs2 fin todoF hscan
      refine ⟨c1, ?_, c3, c4⟩
      intro p hp
      have hpc : ¬c.1 = p.1 := by
        intro he
        exact hnotin (he ▸ List.mem_map.2 ⟨p, hp, he ▸ rfl⟩)
      have hthis := c2 p hp
      by_cases hsep : entries.getD p.2 0 = sentinel
      · rw [if_pos hsep] at hthis ⊢
        rw [findColumn_cons_shift hpc colIdx]
        exact hthis
      · rw [if_neg hsep] at hthis ⊢
        exact hthis
    | some idx =>
      obtain ⟨p0, hfind, hidx⟩ := Option.map_eq_some'.1 hd
      have hp0mem : p0 ∈ u := List.mem_of_find?_eq_some hfind
      have hp0name : p0.1 = c.1 := by simpa using List.find?_some hfind
      subst hidx
      simp only [hd] at hscan
      by_cases hsen : entries.getD p0.2 0 = sentinel
      · rw [if_pos hsen] at hscan
        have hcolne : colIdx ≠ sentinel := by
          simp only [List.length_cons] at hsb
          omega
        obtain ⟨hcnt, hge1⟩ := countSent_set hndi hp0mem hsen hcolne
        have hlt : p0.2 < entries.length := getD_sentinel_lt hsen
        by_cases hz : countSent u entries - 1 = 0
        · rw [if_pos hz] at hscan
          injection hscan with h1 h2
          subst h1
          subst h2
          have hzero : countSent u (entries.set p0.2 colIdx) = 0 := by omega
          refine ⟨List.length_set _ _ _, ?_, ?_, ?_⟩
          · intro p hp
            by_cases hpp : p = p0
            · subst hpp
              rw [getD_set_self _ _ hlt, if_pos hsen,
                findColumn_cons_hit hp0name.symm]
              rfl
            · have hne2 : p.2 ≠ p0.2 := by
                intro he
                exact hpp (List.inj_on_of_nodup_map hndi hp hp0mem he)
              rw [getD_set_ne _ _ (fun he => hne2 he.symm)]
              have hnosent : ¬entries.getD p.2 0 = sentinel := by
                intro hcon
                have hpred : ((entries.set p0.2 colIdx).getD p.2 0 == sentinel) = true := by
                  rw [getD_set_ne _ _ (fun he => hne2 he.symm)]
                  simpa using hcon
                exact (List.countP_eq_zero.1 hzero p hp) hpred
              rw [if_neg hnosent]
          · intro j hj
            have hne : p0.2 ≠ j := by
              intro he
              exact hj (he ▸ List.mem_map.2 ⟨p0, hp0mem, rfl⟩)
            exact getD_set_ne _ _ hne
          · omega
        · rw [if_neg hz] at hscan
          rw [show countSent u entries - 1 = countSent u (entries.set p0.2 colIdx)
            from hcnt.symm] at hscan
          obtain ⟨c1, c2, c3, c4⟩ := ih (colIdx + 1) (entries.set p0.2 colIdx) hs2
            fin todoF hscan
          refine ⟨c1.trans (List.length_set _ _ _), ?_, ?_, c4⟩
          · intro p hp
            by_cases hpp : p = p0
            · subst hpp
              have hset : (entries.set p.2 colIdx).getD p.2 0 = colIdx :=
                getD_set_self _ _ hlt
              have hthis := c2 p hp
              rw [hset, if_neg hcolne] at hthis
              rw [hthis, if_pos hsen, findColumn_cons_hit hp0name.symm]
              rfl
            · have hne2 : p.2 ≠ p0.2 := by
                intro he
                exact hpp (List.inj_on_of_nodup_map hndi hp hp0mem he)
              have hpc : ¬c.1 = p.1 := by
                intro he
                apply hpp
                exact List.inj_on_of_nodup_map hndf hp hp0mem (by rw [← he, hp0name])
              have hthis := c2 p hp
              rw [getD_set_ne _ _ (fun he => hne2 he.symm)] at hthis
              by_cases hsep : entries.getD p.2 0 = sentinel
              · rw [if_pos hsep] at hthis ⊢
                rw [findColumn_cons_shift hpc colIdx]
                exact hthis
              · rw [if_neg hsep] at hthis ⊢
                exact hthis
          · intro j hj
            have hne : p0.2 ≠ j := by
              intro he
              exact hj (he ▸ List.mem_map.2 ⟨p0, hp0mem, rfl⟩)
            rw [c3 j hj, getD_set_ne _ _ hne]
      · rw [if_neg hsen] at hscan
        obtain ⟨c1, c2, c3, c4⟩ := ih (colIdx + 1) entries hs2 fin todoF hscan
        refine ⟨c1, ?_, c3, c4⟩
        intro p hp
        have hthis := c2 p hp
        by_cases hpp : p = p0
        · subst hpp
          rw [if_neg hsen] at hthis ⊢
          exact hthis
        · have hpc : ¬c.1 = p.1 := by
            intro he
            apply hpp
            exact List.inj_on_of_nodup_map hndf hp hp0mem (by rw [← he, hp0name])
          by_cases hsep : entries.getD p.2 0 = sentinel
          · rw [if_pos hsep] at hthis ⊢
            rw [findColumn_cons_shift hpc colIdx]
            exact hthis
          · rw [if_neg hsep] at hthis ⊢
            exact hthis

end TPE

namespace TPE

/-! ## applyRepeats -/

theorem applyRepeats_length :
    ∀ (reps : List (Nat × Nat)) (e : List Nat),
      (applyRepeats reps e).length = e.length := by
  intro reps
  induction reps with
  | nil => intro e; rfl
  | cons t rest ih =>
    intro e
    simp only [applyRepeats]
    rw [ih, List.length_set]

theorem applyRepeats_not_target :
    ∀ (reps : List (Nat × Nat)) (e : List Nat) (j : Nat),
      j ∉ reps.map Prod.fst →
      (applyRepeats reps e).getD j 0 = e.getD j 0 := by
  intro reps
  induction reps with
  | nil => intro e j _; rfl
  | cons t rest ih =>
    intro e j hj
    simp only [List.map_cons, List.mem_cons] at hj
    push_neg at hj
    simp only [applyRepeats]
    rw [ih _ j hj.2, getD_set_ne _ _ (fun he => hj.1 he.symm)]

theorem applyRepeats_target :
    ∀ (reps : List (Nat × Nat)) (e : List Nat),
      List.Pairwise (fun t s : Nat × Nat => t.1 < s.1) reps →
      (∀ t ∈ reps, ∀ s ∈ reps, t.2 ≠ s.1) →
      ∀ t ∈ reps, t.1 < e.length →
      (applyRepeats reps e).getD t.1 0 = e.getD t.2 0 := by
  intro reps
  induction reps with
  | nil => intro e _ _ t ht; simp at ht
  | cons hd rest ih =>
    intro e hpw horig t ht hlt
    rw [List.pairwise_cons] at hpw
    simp only [applyRepeats]
    rcases List.mem_cons.1 ht with h | h
    · subst h
      have hnotin : t.1 ∉ rest.map Prod.fst := by
        intro hmem
        obtain ⟨s, hs, hss⟩ := List.mem_map.1 hmem
        have := hpw.1 s hs
        omega
      rw [applyRepeats_not_target rest _ t.1 hnotin,
        getD_set_self _ _ hlt]
    · have horig2 : ∀ a ∈ rest, ∀ b ∈ rest, a.2 ≠ b.1 := by
        intro a ha b hb
        exact horig a (by simp [ha]) b (by simp [hb])
      have hres := ih (e.set hd.1 (e.getD hd.2 0)) hpw.2 horig2 t h
        (by rw [List.length_set]; exact hlt)
      rw [hres]
      have hne : hd.1 ≠ t.2 := by
        have := horig t (by simp [h]) hd (by simp)
        exact fun he => this he.symm
      rw [getD_set_ne _ _ hne]

/-! ## Helpers for the zero- and one-name paths -/

theorem namesOf_mem_of_get? {fields : List ColumnIdentifier} {i : Nat} {n : BName}
    (h : fields.get? i = some (ColumnIdentifier.name n)) : n ∈ namesOf fields :=
  List.mem_filterMap.2 ⟨ColumnIdentifier.name n, List.get?_mem h, rfl⟩

theorem all_index_of_no_names {fields : List ColumnIdentifier}
    (h : namesOf fields = []) :
    ∀ f ∈ fields, ∀ n, f ≠ ColumnIdentifier.name n := by
  intro f hf n he
  subst he
  have : n ∈ namesOf fields := List.mem_filterMap.2 ⟨_, hf, rfl⟩
  rw [h] at this
  simp at this

theorem filterMap_index_length :
    ∀ (fields : List ColumnIdentifier),
      (∀ f ∈ fields, ∀ n, f ≠ ColumnIdentifier.name n) →
      (fields.filterMap (fun f =>
        match f with
        | .index i => some i
        | .name _ => none)).length = fields.length := by
  intro fields
  induction fields with
  | nil => intro _; rfl
  | cons f rest ih =>
    intro h
    cases f with
    | index k =>
      simp only [List.filterMap_cons]
      rw [List.length_cons, List.length_cons, ih (fun g hg => h g (by simp [hg]))]
    | name n => exact absurd rfl (h (ColumnIdentifier.name n) (by simp) n)

theorem filterMap_index_get? :
    ∀ (fields : List ColumnIdentifier),
      (∀ f ∈ fields, ∀ n, f ≠ ColumnIdentifier.name n) →
      ∀ (i k : Nat), fields.get? i = some (ColumnIdentifier.index k) →
        (fields.filterMap (fun f =>
          match f with
          | .index i2 => some i2
          | .name _ => none)).get? i = some k := by
  intro fields
  induction fields with
  | nil => intro _ i k h; simp at h
  | cons f rest ih =>
    intro h i k hget
    cases f with
    | index k0 =>
      simp only [List.filterMap_cons]
      cases i with
      | zero =>
        simp only [List.get?_cons_zero] at hget ⊢
        injection hget with hh
        injection hh with hk
        rw [hk]
      | succ j =>
        simp only [List.get?_cons_succ] at hget ⊢
        exact ih (fun g hg => h g (by simp [hg])) j k hget
    | name n => exact absurd rfl (h (ColumnIdentifier.name n) (by simp) n)

theorem numUnique_one_all_eq {fields : List ColumnIdentifier}
    (h : numUniqueNames fields = 1) :
    ∃ a, ∀ n ∈ namesOf fields, n = a := by
  unfold numUniqueNames at h
  obtain ⟨a, ha⟩ := List.length_eq_one.1 h
  refine ⟨a, ?_⟩
  intro n hn
  have : n ∈ (namesOf fields).dedup := List.mem_dedup.2 hn
  rw [ha] at this
  simpa using this

theorem contains_iff_mem {l : List BName} {a : BName} :
    l.contains a = true ↔ a ∈ l :=
  List.elem_iff

theorem get?_eq_some_getD {l : List Nat} {i : Nat} (h : i < l.length) :
    l.get? i = some (l.getD i 0) := by
  rw [List.getD_eq_get?]
  cases hg : l.get? i with
  | none =>
    rw [List.get?_eq_none] at hg
    omega
  | some v => rfl

end TPE

namespace TPE

/-! ## The builder specification -/

/-- Joint specification of `Columns::columns`: it panics with `MissingColumn`
on the first unresolved distinct name, and otherwise returns an index array
mapping every name-bound field to the first column with its name and every
index-bound field to its literal index. -/
def BuildSpec {V : Type} (fields : List ColumnIdentifier) (row : Row V) : Prop :=
  (∀ m, firstMissing fields row = some m →
    buildColumns fields row = Except.error (ExtractError.MissingColumn m)) ∧
  (firstMissing fields row = none →
    ∃ ixs, buildColumns fields row = Except.ok ixs ∧
      ixs.length = fields.length ∧
      (∀ i n, fields.get? i = some (ColumnIdentifier.name n) →
        ixs.get? i = findColumn n row.cols) ∧
      (∀ i k, fields.get? i = some (ColumnIdentifier.index k) →
        ixs.get? i = some k))

theorem genOk_groups {fields : List ColumnIdentifier} (hgen : genOkB fields = true) :
    ∀ p ∈ lengthGroups (uniqList fields), planGroup p.1 p.2 ≠ GroupPlan.panicked := by
  intro p hp hcon
  have := List.all_eq_true.1 hgen p hp
  rw [hcon] at this
  simp at this

theorem buildColumns_spec_zero {V : Type} {fields : List ColumnIdentifier}
    (row : Row V) (h0 : numUniqueNames fields = 0) : BuildSpec fields row := by
  have hno : namesOf fields = [] := by
    unfold numUniqueNames at h0
    exact (List.dedup_eq_nil _).1 (List.length_eq_zero.1 h0)
  have hallidx := all_index_of_no_names hno
  have hbc : buildColumns fields row = Except.ok (fields.filterMap (fun f =>
      match f with
      | .index i => some i
      | .name _ => none)) := by
    unfold buildColumns
    rw [if_pos h0]
  have hu : uniqList fields = [] := by
    cases hu : uniqList fields with
    | nil => rfl
    | cons p rest =>
      have hmem : p.1 ∈ (uniqList fields).map Prod.fst := by rw [hu]; simp
      rw [uniq_names_mem, hno] at hmem
      simp at hmem
  have hfmiss : firstMissing fields row = none := by
    unfold firstMissing
    rw [hu]
    rfl
  constructor
  · intro m hm
    rw [hfmiss] at hm
    exact Option.noConfusion hm
  · intro _
    refine ⟨_, hbc, filterMap_index_length fields hallidx, ?_, ?_⟩
    · intro i n hn
      exact absurd rfl (hallidx _ (List.get?_mem hn) n)
    · intro i k hk
      exact filterMap_index_get? fields hallidx i k hk

theorem buildColumns_spec_one {V : Type} {fields : List ColumnIdentifier}
    (row : Row V) (h0 : ¬numUniqueNames fields = 0)
    (h1 : numUniqueNames fields = 1) : BuildSpec fields row := by
  obtain ⟨a, ha⟩ := numUnique_one_all_eq h1
  cases hnm : namesOf fields with
  | nil =>
    exact absurd (by unfold numUniqueNames; rw [hnm]; rfl) h0
  | cons thename restn =>
  have hhead : (namesOf fields).head? = some thename := by rw [hnm]; rfl
  have hta : thename = a := ha thename (by rw [hnm]; simp)
  have hulen : (uniqList fields).length = 1 := by rw [uniq_length_eq]; exact h1
  obtain ⟨p, hup⟩ := List.length_eq_one.1 hulen
  have hpname : p.1 = thename := by
    have hmem : p.1 ∈ (uniqList fields).map Prod.fst := by rw [hup]; simp
    rw [uniq_names_mem] at hmem
    rw [ha p.1 hmem, hta]
  have hbc0 : buildColumns fields row =
      (match findColumn thename row.cols with
        | some j => Except.ok (fields.map fun f =>
            match f with
            | .index i => i
            | .name _ => j)
        | none => Except.error (.MissingColumn thename)) := by
    unfold buildColumns
    rw [if_neg h0, if_pos h1]
    simp only [hhead]
  cases hfc : findColumn thename row.cols with
  | some j =>
    have hbc : buildColumns fields row = Except.ok (fields.map fun f =>
        match f with
        | .index i => i
        | .name _ => j) := by
      rw [hbc0]
      simp only [hfc]
    have hpresent : p.1 ∈ row.names := by
      rw [hpname]
      obtain ⟨hjlt, hjname⟩ := findColumn_spec hfc
      have hng : row.names.get? j = some thename := by
        unfold Row.names
        rw [List.get?_map]
        exact hjname
      exact List.get?_mem hng
    have hfmiss : firstMissing fields row = none := by
      have hcont : (row.names.contains p.1) = true := contains_iff_mem.2 hpresent
      unfold firstMissing
      rw [hup, List.find?_cons_of_neg]
      · rfl
      · rw [hcont]
        simp
    constructor
    · intro m hm
      rw [hfmiss] at hm
      exact Option.noConfusion hm
    · intro _
      refine ⟨_, hbc, by simp, ?_, ?_⟩
      · intro i n hget
        have hnt : n = thename := by
          rw [ha n (namesOf_mem_of_get? hget), hta]
        rw [List.get?_map, hget]
        simp only [Option.map_some']
        rw [hnt, hfc]
      · intro i k hget
        rw [List.get?_map, hget]
        rfl
  | none =>
    have hbc : buildColumns fields row = Except.error (.MissingColumn thename) := by
      rw [hbc0]
      simp only [hfc]
    have habsent : p.1 ∉ row.names := by
      rw [hpname]
      exact findColumn_eq_none.1 hfc
    have hfmiss : firstMissing fields row = some thename := by
      have hcont : (row.names.contains p.1) = false := by
        rw [Bool.eq_false_iff]
        intro hc
        exact habsent (contains_iff_mem.1 hc)
      unfold firstMissing
      rw [hup, List.find?_cons_of_pos]
      · rw [Option.map_some', hpname]
      · rw [hcont]
        rfl
    constructor
    · intro m hm
      rw [hfmiss] at hm
      injection hm with hm2
      rw [← hm2]
      exact hbc
    · intro hm
      rw [hfmiss] at hm
      exact Option.noConfusion hm

end TPE

namespace TPE

theorem buildColumns_spec_many {V : Type} {fields : List ColumnIdentifier}
    (row : Row V) (hwf : wfFieldsB fields = true) (hgen : genOkB fields = true)
    (hsb : row.cols.length ≤ sentinel) (h0 : ¬numUniqueNames fields = 0)
    (h1 : ¬numUniqueNames fields = 1) : BuildSpec fields row := by
  have hndf := uniq_names_nodup fields
  have hndi := uniq_idx_nodup fields
  have hwfu : ∀ p ∈ uniqList fields, wfName p.1 = true := fun p hp => uniq_wf hwf hp
  have hgen2 := genOk_groups hgen
  have hdisp : dispatch (uniqList fields) = nameLookup (uniqList fields) :=
    funext (fun s => dispatch_eq_find hndf hwfu hgen2)
  have hinitlen : (initEntries fields).length = fields.length := initEntries_length fields
  have hcount0 : countSent (uniqList fields) (initEntries fields) =
      (uniqList fields).length := by
    unfold countSent
    rw [List.countP_eq_length]
    intro p hp
    have := initEntries_get_name (uniq_mem_get? hp)
    simpa using this
  have hnu : numUniqueNames fields =
      countSent (uniqList fields) (initEntries fields) := by
    rw [hcount0, uniq_length_eq]
  cases hres : scanLoop (dispatch (uniqList fields)) row.cols 0
      (initEntries fields) (numUniqueNames fields) with
  | mk fin todoF =>
  have hres2 : scanLoop (nameLookup (uniqList fields)) row.cols 0
      (initEntries fields)
      (countSent (uniqList fields) (initEntries fields)) = (fin, todoF) := by
    rw [← hdisp, ← hnu]
    exact hres
  obtain ⟨c1, c2, c3, c4⟩ := scanLoop_spec (uniqList fields) hndf hndi row.cols 0
    (initEntries fields) (by simpa using hsb) fin todoF hres2
  have hfinp : ∀ p ∈ uniqList fields, fin.getD p.2 0 =
      (match findColumn p.1 row.cols with
        | some r => r
        | none => sentinel) := by
    intro p hp
    have hinit := initEntries_get_name (uniq_mem_get? hp)
    have hthis := c2 p hp
    rw [if_pos hinit] at hthis
    rw [hthis]
    cases hf : findColumn p.1 row.cols <;> simp [hf]
  have hpred : ∀ p ∈ uniqList fields,
      (fin.getD p.2 0 == sentinel) = (!(row.names.contains p.1)) := by
    intro p hp
    rw [hfinp p hp]
    cases hf : findColumn p.1 row.cols with
    | none =>
      have habs : p.1 ∉ row.names := findColumn_eq_none.1 hf
      have hcont : row.names.contains p.1 = false := by
        rw [Bool.eq_false_iff]
        intro hc
        exact habs (contains_iff_mem.1 hc)
      rw [hcont]
      simp
    | some r =>
      obtain ⟨hrlt, hrname⟩ := findColumn_spec hf
      have hpres : p.1 ∈ row.names := by
        have hng : row.names.get? r = some p.1 := by
          unfold Row.names
          rw [List.get?_map]
          exact hrname
        exact List.get?_mem hng
      have hcont : row.names.contains p.1 = true := contains_iff_mem.2 hpres
      rw [hcont]
      simp only [Bool.not_true]
      rw [Bool.eq_false_iff]
      intro hbe
      have hr : r = sentinel := by simpa using hbe
      omega
  have hfindcong : (uniqList fields).find? (fun p => fin.getD p.2 0 == sentinel) =
      (uniqList fields).find? (fun p => !(row.names.contains p.1)) :=
    find?_congr hpred
  constructor
  · intro m hm
    unfold firstMissing at hm
    obtain ⟨p, hfind, hp1⟩ := Option.map_eq_some'.1 hm
    have hpmem : p ∈ uniqList fields := List.mem_of_find?_eq_some hfind
    have hppred := List.find?_some hfind
    have hpsent : (fin.getD p.2 0 == sentinel) = true := by
      rw [hpred p hpmem]
      exact hppred
    have hpos : 0 < countSent (uniqList fields) fin :=
      List.countP_pos.2 ⟨p, hpmem, hpsent⟩
    have htodo : todoF > 0 := by
      rw [c4]
      exact hpos
    unfold buildColumns
    rw [if_neg h0, if_neg h1]
    simp only [hres]
    rw [if_pos htodo]
    simp only [hfindcong, hfind]
    rw [hp1]
  · intro hm
    unfold firstMissing at hm
    have hfindnone : (uniqList fields).find?
        (fun p => !(row.names.contains p.1)) = none := Option.map_eq_none'.1 hm
    have hallpres : ∀ p ∈ uniqList fields,
        (fin.getD p.2 0 == sentinel) = false := by
      intro p hp
      rw [hpred p hp]
      have hnp := List.find?_eq_none.1 hfindnone p hp
      cases hc : row.names.contains p.1 with
      | true => rfl
      | false => exact absurd (by rw [hc]; rfl) hnp
    have hcnt0 : countSent (uniqList fields) fin = 0 := by
      apply List.countP_eq_zero.2
      intro p hp hp2
      rw [hallpres p hp] at hp2
      exact Bool.noConfusion hp2
    have htodo0 : todoF = 0 := by
      rw [c4, hcnt0]
    have hbc : buildColumns fields row =
        Except.ok (applyRepeats (repeatsList fields) fin) := by
      unfold buildColumns
      rw [if_neg h0, if_neg h1]
      simp only [hres]
      rw [if_neg (show ¬todoF > 0 by omega)]
    have horig : ∀ t ∈ repeatsList fields, ∀ s ∈ repeatsList fields,
        t.2 ≠ s.1 := by
      intro t htm s hsm he
      obtain ⟨nt, hgt, hut⟩ := repeats_origin htm
      exact repeats_target_not_u hsm (he ▸ List.mem_map.2 ⟨(nt, t.2), hut, rfl⟩)
    have hreslen : (applyRepeats (repeatsList fields) fin).length = fields.length := by
      rw [applyRepeats_length, c1, hinitlen]
    have hpresent : ∀ p ∈ uniqList fields, ∃ r, findColumn p.1 row.cols = some r := by
      intro p hp
      cases hf : findColumn p.1 row.cols with
      | some r => exact ⟨r, rfl⟩
      | none =>
        have habs : p.1 ∉ row.names := findColumn_eq_none.1 hf
        have hnp := List.find?_eq_none.1 hfindnone p hp
        have hcont : row.names.contains p.1 = false := by
          rw [Bool.eq_false_iff]
          intro hc
          exact habs (contains_iff_mem.1 hc)
        exact absurd (by rw [hcont]; rfl) hnp
    refine ⟨_, hbc, hreslen, ?_, ?_⟩
    · intro i n hget
      have hi_lt : i < fields.length := by
        rcases List.get?_eq_some.1 hget with ⟨h, _⟩
        exact h
      rw [get?_eq_some_getD (by rw [hreslen]; exact hi_lt)]
      rcases field_cover hget with hcase | ⟨o, hrep, hou⟩
      · have hnotarget : i ∉ (repeatsList fields).map Prod.fst := by
          intro hmem
          obtain ⟨t, htm, hti⟩ := List.mem_map.1 hmem
          exact repeats_target_not_u htm
            (hti ▸ List.mem_map.2 ⟨(n, i), hcase, rfl⟩)
        obtain ⟨r, hr⟩ := hpresent (n, i) hcase
        have hfin := hfinp (n, i) hcase
        rw [hr] at hfin
        rw [applyRepeats_not_target _ _ _ hnotarget]
        simp only at hfin
        rw [hfin, hr]
      · obtain ⟨r, hr⟩ := hpresent (n, o) hou
        have hfin := hfinp (n, o) hou
        rw [hr] at hfin
        have hi_lt2 : i < fin.length := by
          rw [c1, hinitlen]
          exact hi_lt
        have htgt := applyRepeats_target (repeatsList fields) fin
          (repeats_pairwise fields) horig (i, o) hrep hi_lt2
        simp only at htgt hfin
        rw [htgt, hfin, hr]
    · intro i k hget
      have hi_lt : i < fields.length := by
        rcases List.get?_eq_some.1 hget with ⟨h, _⟩
        exact h
      have hnotu : i ∉ (uniqList fields).map Prod.snd := by
        intro hmem
        obtain ⟨p, hp, hpi⟩ := List.mem_map.1 hmem
        have hg := uniq_mem_get? hp
        rw [hpi, hget] at hg
        injection hg with hh
        exact ColumnIdentifier.noConfusion hh
      have hnotarget : i ∉ (repeatsList fields).map Prod.fst := by
        intro hmem
        obtain ⟨t, htm, hti⟩ := List.mem_map.1 hmem
        obtain ⟨nt, hgt, _⟩ := repeats_origin htm
        rw [hti, hget] at hgt
        injection hgt with hh
        exact ColumnIdentifier.noConfusion hh
      rw [get?_eq_some_getD (by rw [hreslen]; exact hi_lt)]
      rw [applyRepeats_not_target _ _ _ hnotarget, c3 i hnotu,
        initEntries_get_index hget]

/-- Full builder specification, by cases on the number of distinct names. -/
theorem buildColumns_spec {V : Type} (fields : List ColumnIdentifier) (row : Row V)
    (hwf : wfFieldsB fields = true) (hgen : genOkB fields = true)
    (hsb : row.cols.length ≤ sentinel) : BuildSpec fields row := by
  by_cases h0 : numUniqueNames fields = 0
  · exact buildColumns_spec_zero row h0
  · by_cases h1 : numUniqueNames fields = 1
    · exact buildColumns_spec_one row h0 h1
    · exact buildColumns_spec_many row hwf hgen hsb h0 h1

end TPE

namespace TPE

/-! ## Corollaries of the builder specification -/

theorem firstMissing_some_props {V : Type} {fields : List ColumnIdentifier}
    {row : Row V} {m : BName} (h : firstMissing fields row = some m) :
    m ∈ namesOf fields ∧ m ∉ row.names := by
  unfold firstMissing at h
  obtain ⟨p, hfind, hp1⟩ := Option.map_eq_some'.1 h
  have hpmem := List.mem_of_find?_eq_some hfind
  have hpp := List.find?_some hfind
  have hpp2 : (!(row.names.contains p.1)) = true := hpp
  constructor
  · rw [← hp1]
    exact (uniq_names_mem fields p.1).1 (List.mem_map.2 ⟨p, hpmem, rfl⟩)
  · rw [← hp1]
    intro hmem
    rw [contains_iff_mem.2 hmem] at hpp2
    simp at hpp2

theorem firstMissing_none_iff {V : Type} (fields : List ColumnIdentifier)
    (row : Row V) :
    firstMissing fields row = none ↔ ∀ n ∈ namesOf fields, n ∈ row.names := by
  unfold firstMissing
  rw [Option.map_eq_none', List.find?_eq_none]
  constructor
  · intro h n hn
    obtain ⟨p, hp, hps⟩ := List.mem_map.1 ((uniq_names_mem fields n).2 hn)
    have := h p hp
    by_contra habs
    apply this
    have hcont : row.names.contains p.1 = false := by
      rw [Bool.eq_false_iff]
      intro hc
      exact habs (hps ▸ contains_iff_mem.1 hc)
    rw [hcont]
    rfl
  · intro h p hp hpred
    have hp2 : (!(row.names.contains p.1)) = true := hpred
    have hmem : p.1 ∈ namesOf fields :=
      (uniq_names_mem fields p.1).1 (List.mem_map.2 ⟨p, hp, rfl⟩)
    rw [contains_iff_mem.2 (h p.1 hmem)] at hp2
    simp at hp2

theorem buildColumns_ok_props {V : Type} {fields : List ColumnIdentifier}
    {row : Row V} (hwf : wfFieldsB fields = true) (hgen : genOkB fields = true)
    (hsb : row.cols.length ≤ sentinel) {ixs : List Nat}
    (hok : buildColumns fields row = Except.ok ixs) :
    ixs.length = fields.length ∧
    (∀ i n, fields.get? i = some (ColumnIdentifier.name n) →
      ixs.get? i = findColumn n row.cols) ∧
    (∀ i k, fields.get? i = some (ColumnIdentifier.index k) →
      ixs.get? i = some k) := by
  obtain ⟨he, ho⟩ := buildColumns_spec fields row hwf hgen hsb
  cases hfm : firstMissing fields row with
  | some m =>
    rw [he m hfm] at hok
    exact Except.noConfusion hok
  | none =>
    obtain ⟨ixs2, hbc, hprops⟩ := ho hfm
    rw [hbc] at hok
    injection hok with hh
    rw [← hh]
    exact hprops

theorem buildColumns_error_props {V : Type} {fields : List ColumnIdentifier}
    {row : Row V} (hwf : wfFieldsB fields = true) (hgen : genOkB fields = true)
    (hsb : row.cols.length ≤ sentinel) {e : ExtractError}
    (herr : buildColumns fields row = Except.error e) :
    ∃ n, e = ExtractError.MissingColumn n ∧ n ∈ namesOf fields ∧ n ∉ row.names := by
  obtain ⟨he, ho⟩ := buildColumns_spec fields row hwf hgen hsb
  cases hfm : firstMissing fields row with
  | some m =>
    have := he m hfm
    rw [herr] at this
    injection this with hh
    obtain ⟨h1, h2⟩ := firstMissing_some_props hfm
    exact ⟨m, hh, h1, h2⟩
  | none =>
    obtain ⟨ixs2, hbc, _⟩ := ho hfm
    rw [herr] at hbc
    exact Except.noConfusion hbc

theorem buildColumns_ok_of_present {V : Type} {fields : List ColumnIdentifier}
    {row : Row V} (hwf : wfFieldsB fields = true) (hgen : genOkB fields = true)
    (hsb : row.cols.length ≤ sentinel)
    (hcov : ∀ n ∈ namesOf fields, n ∈ row.names) :
    ∃ ixs, buildColumns fields row = Except.ok ixs := by
  obtain ⟨_, ho⟩ := buildColumns_spec fields row hwf hgen hsb
  obtain ⟨ixs, hbc, _⟩ := ho ((firstMissing_none_iff fields row).2 hcov)
  exact ⟨ixs, hbc⟩

theorem buildColumns_error_of_absent {V : Type} {fields : List ColumnIdentifier}
    {row : Row V} (hwf : wfFieldsB fields = true) (hgen : genOkB fields = true)
    (hsb : row.cols.length ≤ sentinel)
    (habs : ∃ n ∈ namesOf fields, n ∉ row.names) :
    ∃ m, buildColumns fields row = Except.error (ExtractError.MissingColumn m) ∧
      m ∈ namesOf fields ∧ m ∉ row.names := by
  obtain ⟨he, ho⟩ := buildColumns_spec fields row hwf hgen hsb
  cases hfm : firstMissing fields row with
  | some m =>
    obtain ⟨h1, h2⟩ := firstMissing_some_props hfm
    exact ⟨m, he m hfm, h1, h2⟩
  | none =>
    obtain ⟨n, hn, hnr⟩ := habs
    exact absurd ((firstMissing_none_iff fields row).1 hfm n hn) hnr

/-! ## Values reached through the index array -/

theorem extractWithColumns_get? {V : Type} (c : List Nat) (row : Row V) (i : Nat) :
    (extractWithColumns c row).get? i = (c.get? i).map row.get := by
  unfold extractWithColumns
  rw [List.get?_map]

theorem extract_value_at {V : Type} {fields : List ColumnIdentifier}
    {row : Row V} (hwf : wfFieldsB fields = true) (hgen : genOkB fields = true)
    (hsb : row.cols.length ≤ sentinel) {ixs : List Nat}
    (hok : buildColumns fields row = Except.ok ixs) :
    ∀ i n, fields.get? i = some (ColumnIdentifier.name n) →
      (extractWithColumns ixs row).get? i = some (valueAt n row) := by
  obtain ⟨hlen, hname, hidx⟩ := buildColumns_ok_props hwf hgen hsb hok
  intro i n hget
  have hfc := hname i n hget
  cases hf : findColumn n row.cols with
  | none =>
    have habs : n ∉ row.names := findColumn_eq_none.1 hf
    obtain ⟨he, ho⟩ := buildColumns_spec fields row hwf hgen hsb
    cases hfm : firstMissing fields row with
    | some m =>
      rw [he m hfm] at hok
      exact Except.noConfusion hok
    | none =>
      exact absurd ((firstMissing_none_iff fields row).1 hfm n
        (namesOf_mem_of_get? hget)) habs
  | some j =>
    rw [hf] at hfc
    rw [extractWithColumns_get?, hfc]
    have hv := findColumn_value n row
    rw [hf] at hv
    simp only [Option.map_some']
    rw [← hv]

/-! ## Extraction entry points -/

theorem extract_some_slot {V : Type} (fields : List ColumnIdentifier)
    (c : List Nat) (row : Row V) :
    extract fields (some c) row = Except.ok (some c, extractWithColumns c row) := rfl

theorem extract_none_slot_ok {V : Type} {fields : List ColumnIdentifier}
    {row : Row V} {c : List Nat} (h : buildColumns fields row = Except.ok c) :
    extract fields none row = Except.ok (some c, extractWithColumns c row) := by
  unfold extract
  rw [h]

theorem extract_none_slot_err {V : Type} {fields : List ColumnIdentifier}
    {row : Row V} {e : ExtractError} (h : buildColumns fields row = Except.error e) :
    extract fields none row = Except.error e := by
  unfold extract
  rw [h]

theorem extractOnce_ok {V : Type} {fields : List ColumnIdentifier} {row : Row V}
    {c : List Nat} (h : buildColumns fields row = Except.ok c) :
    extractOnce fields row = Except.ok (extractWithColumns c row) := by
  unfold extractOnce
  rw [extract_none_slot_ok h]

theorem extractOnce_err {V : Type} {fields : List ColumnIdentifier} {row : Row V}
    {e : ExtractError} (h : buildColumns fields row = Except.error e) :
    extractOnce fields row = Except.error e := by
  unfold extractOnce
  rw [extract_none_slot_err h]

/-! ## Sequence adapters -/

theorem runExtractIter_cached {V : Type} (fields : List ColumnIdentifier)
    (c : List Nat) :
    ∀ rows : List (Row V),
      runExtractIter fields (some c) rows =
        Except.ok (some c, rows.map (fun r => extractWithColumns c r)) := by
  intro rows
  induction rows with
  | nil => rfl
  | cons r rest ih =>
    simp only [runExtractIter, extract_some_slot, ih, List.map_cons]

theorem runExtractIter_first {V : Type} {fields : List ColumnIdentifier}
    {r : Row V} {c : List Nat} (rows : List (Row V))
    (h : buildColumns fields r = Except.ok c) :
    runExtractIter fields none (r :: rows) =
      Except.ok (some c, extractWithColumns c r ::
        rows.map (fun r2 => extractWithColumns c r2)) := by
  simp only [runExtractIter, extract_none_slot_ok h, runExtractIter_cached]

theorem runExtractStream_cached {V E : Type} (fields : List ColumnIdentifier)
    (c : List Nat) :
    ∀ items : List (Except E (Row V)),
      runExtractStream fields (some c) items =
        Except.ok (some c, items.map (fun it =>
          it.map (fun r => extractWithColumns c r))) := by
  intro items
  induction items with
  | nil => rfl
  | cons it rest ih =>
    cases it with
    | error e =>
      simp only [runExtractStream, ih, List.map_cons, Except.map]
    | ok r =>
      simp only [runExtractStream, extract_some_slot, ih, List.map_cons, Except.map]

theorem runExtractStream_first {V E : Type} {fields : List ColumnIdentifier}
    {r : Row V} {c : List Nat} (items : List (Except E (Row V)))
    (h : buildColumns fields r = Except.ok c) :
    runExtractStream fields none (Except.ok r :: items) =
      Except.ok (some c, Except.ok (extractWithColumns c r) ::
        items.map (fun it => it.map (fun r2 => extractWithColumns c r2))) := by
  simp only [runExtractStream, extract_none_slot_ok h, runExtractStream_cached]

end TPE

namespace TPE

/-! ## Permutation invariance ingredients -/

/-- Every field is name-bound (no explicit indices). -/
def allNamed (fields : List ColumnIdentifier) : Bool :=
  fields.all (fun f =>
    match f with
    | .name _ => true
    | .index _ => false)

theorem allNamed_spec {fields : List ColumnIdentifier} (h : allNamed fields = true) :
    ∀ {i : Nat} {f : ColumnIdentifier}, fields.get? i = some f →
      ∃ n, f = ColumnIdentifier.name n := by
  intro i f hget
  have hf := List.all_eq_true.1 h f (List.get?_mem hget)
  cases f with
  | name n => exact ⟨n, rfl⟩
  | index k => simp at hf

theorem find?_fst_eq_of_mem {β : Type} {l : List (BName × β)}
    (hnd : (l.map Prod.fst).Nodup) {p : BName × β} (hp : p ∈ l) :
    l.find? (fun q => q.1 == p.1) = some p := by
  induction l with
  | nil => simp at hp
  | cons x xs ih =>
    rcases List.mem_cons.1 hp with h | h
    · subst h
      simp [List.find?_cons]
    · have hx : (x.1 == p.1) = false := by
        rw [Bool.eq_false_iff]
        intro hbe
        have hxp : x.1 = p.1 := by simpa [beq_iff_eq] using hbe
        have hmem : x.1 ∈ xs.map Prod.fst := hxp ▸ List.mem_map.2 ⟨p, h, rfl⟩
        exact (List.nodup_cons.1 (by simpa using hnd)).1 hmem
      simp only [List.find?_cons, hx]
      exact ih (List.nodup_cons.1 (by simpa using hnd)).2 h

theorem find?_fst_eq_none {β : Type} {l : List (BName × β)} {s : BName}
    (h : s ∉ l.map Prod.fst) : l.find? (fun q => q.1 == s) = none := by
  rw [List.find?_eq_none]
  intro q hq hbe
  exact h (List.mem_map.2 ⟨q, hq, by simpa [beq_iff_eq] using hbe⟩)

theorem valueAt_perm {V : Type} {row row' : Row V} (hperm : row'.cols.Perm row.cols)
    (hnd : row.names.Nodup) : ∀ n, valueAt n row' = valueAt n row := by
  intro n
  have hnamesperm : row'.names.Perm row.names := hperm.map Prod.fst
  have hnd' : row'.names.Nodup := (hnamesperm.nodup_iff).2 hnd
  by_cases hmem : n ∈ row.names
  · obtain ⟨cpair, hc, hcn⟩ := List.mem_map.1 hmem
    have hc' : cpair ∈ row'.cols := hperm.mem_iff.2 hc
    unfold valueAt
    have h1 : row.cols.find? (fun c => c.1 == n) = some cpair := by
      rw [← hcn]
      exact find?_fst_eq_of_mem hnd hc
    have h2 : row'.cols.find? (fun c => c.1 == n) = some cpair := by
      rw [← hcn]
      exact find?_fst_eq_of_mem hnd' hc'
    rw [h1, h2]
  · have hmem' : n ∉ row'.names := fun hm => hmem (hnamesperm.mem_iff.1 hm)
    unfold valueAt
    rw [find?_fst_eq_none hmem, find?_fst_eq_none hmem']

theorem firstMissing_perm {V : Type} {fields : List ColumnIdentifier}
    {row row' : Row V} (hperm : row'.cols.Perm row.cols) :
    firstMissing fields row' = firstMissing fields row := by
  unfold firstMissing
  congr 1
  apply find?_congr
  intro p _
  have hmemiff : p.1 ∈ row'.names ↔ p.1 ∈ row.names := (hperm.map Prod.fst).mem_iff
  cases hc : row.names.contains p.1 with
  | true =>
    have h2 : row'.names.contains p.1 = true :=
      contains_iff_mem.2 (hmemiff.2 (contains_iff_mem.1 hc))
    rw [h2]
  | false =>
    have h1 : p.1 ∉ row.names := by
      intro hm
      rw [contains_iff_mem.2 hm] at hc
      exact Bool.noConfusion hc
    have h2 : row'.names.contains p.1 = false := by
      rw [Bool.eq_false_iff]
      intro hcc
      exact h1 (hmemiff.1 (contains_iff_mem.1 hcc))
    rw [h2]

theorem extractOnce_perm {V : Type} {fields : List ColumnIdentifier}
    {row row' : Row V} (hwf : wfFieldsB fields = true)
    (hgen : genOkB fields = true) (hsb : row.cols.length ≤ sentinel)
    (hnamed : allNamed fields = true) (hperm : row'.cols.Perm row.cols)
    (hnd : row.names.Nodup) :
    extractOnce fields row' = extractOnce fields row := by
  have hsb' : row'.cols.length ≤ sentinel := by
    rw [hperm.length_eq]
    exact hsb
  obtain ⟨he, ho⟩ := buildColumns_spec fields row hwf hgen hsb
  obtain ⟨he', ho'⟩ := buildColumns_spec fields row' hwf hgen hsb'
  cases hfm : firstMissing fields row with
  | some m =>
    have hfm' : firstMissing fields row' = some m :=
      (firstMissing_perm hperm).trans hfm
    rw [extractOnce_err (he m hfm), extractOnce_err (he' m hfm')]
  | none =>
    have hfm' : firstMissing fields row' = none :=
      (firstMissing_perm hperm).trans hfm
    obtain ⟨ixs, hbc, hlen, _, _⟩ := ho hfm
    obtain ⟨ixs', hbc', hlen', _, _⟩ := ho' hfm'
    rw [extractOnce_ok hbc, extractOnce_ok hbc']
    have hval : extractWithColumns ixs' row' = extractWithColumns ixs row := by
      apply List.ext
      intro i
      cases hgf : fields.get? i with
      | none =>
        have hge : fields.length ≤ i := List.get?_eq_none.1 hgf
        have hl1 : (extractWithColumns ixs' row').length = fields.length := by
          unfold extractWithColumns
          rw [List.length_map, hlen']
        have hl2 : (extractWithColumns ixs row).length = fields.length := by
          unfold extractWithColumns
          rw [List.length_map, hlen]
        rw [List.get?_len_le (by omega), List.get?_len_le (by omega)]
      | some f =>
        obtain ⟨n, hfn⟩ := allNamed_spec hnamed hgf
        subst hfn
        rw [extract_value_at hwf hgen hsb hbc i n hgf,
          extract_value_at hwf hgen hsb' hbc' i n hgf,
          valueAt_perm hperm hnd n]
    rw [hval]

end TPE

namespace TPE

/-! ## Claims -/

/-- C1: for every record type with name-bound fields and every row whose
columns contain every bound name, in any column order, the builder succeeds
and maps each name-bound field to the position of the first column bearing its
bound name, so extraction yields for that field exactly the value obtained by
looking the name up directly in the row.  (Scenario A — row
`[("y",2),("x",1)]`, fields `x`, `y` — is instantiated in the witness:
IndexArray `[1, 0]`, record `{x: 1, y: 2}`.) -/
theorem claim_C1 (V : Type) (fields : List ColumnIdentifier) (row : Row V)
    (hwf : wfFieldsB fields = true) (hgen : genOkB fields = true)
    (hsb : row.cols.length ≤ sentinel)
    (hcov : ∀ n ∈ namesOf fields, n ∈ row.names) :
    ∃ ixs, buildColumns fields row = Except.ok ixs ∧
      (∀ i n, fields.get? i = some (ColumnIdentifier.name n) →
        ixs.get? i = findColumn n row.cols ∧
        (extractWithColumns ixs row).get? i = some (valueAt n row)) := by
  obtain ⟨ixs, hbc⟩ := buildColumns_ok_of_present hwf hgen hsb hcov
  obtain ⟨_, hname, _⟩ := buildColumns_ok_props hwf hgen hsb hbc
  exact ⟨ixs, hbc, fun i n hget =>
    ⟨hname i n hget, extract_value_at hwf hgen hsb hbc i n hget⟩⟩

/-- C1 witness: Scenario A evaluated concretely. -/
theorem claim_C1_witness :
    buildColumns [ColumnIdentifier.name [120], ColumnIdentifier.name [121]]
      (Row.mk [([121], (2 : Nat)), ([120], 1)]) = Except.ok [1, 0] ∧
    extractWithColumns [1, 0] (Row.mk [([121], (2 : Nat)), ([120], 1)]) =
      [some 1, some 2] ∧
    (∃ ixs, buildColumns [ColumnIdentifier.name [120], ColumnIdentifier.name [121]]
        (Row.mk [([121], (2 : Nat)), ([120], 1)]) = Except.ok ixs ∧
      (∀ i n, [ColumnIdentifier.name [120], ColumnIdentifier.name [121]].get? i =
          some (ColumnIdentifier.name n) →
        ixs.get? i = findColumn n (Row.mk [([121], (2 : Nat)), ([120], 1)]).cols ∧
        (extractWithColumns ixs (Row.mk [([121], (2 : Nat)), ([120], 1)])).get? i =
          some (valueAt n (Row.mk [([121], (2 : Nat)), ([120], 1)])))) :=
  ⟨by decide, by decide,
    claim_C1 Nat [ColumnIdentifier.name [120], ColumnIdentifier.name [121]]
      (Row.mk [([121], (2 : Nat)), ([120], 1)])
      (by decide) (by decide) (by decide) (by decide)⟩

/-- C2: the claim asserts that a length group either gets a discriminator
window or falls back to direct equality.  The code instead panics for the
length-3 group of names "xab", "xaz", "yab": no window of width 1 or 2 is
distinct, and the next width 4 exceeds the name length, so `len - sub_len`
underflows (`usize`) and the derive macro panics.  This theorem evaluates the
model at that group: the plan is `panicked`, and code generation for a struct
with those three field names is not `genOk`. -/
theorem claim_C2_panic :
    planGroup 3 [([120, 97, 98], 0), ([120, 97, 122], 1), ([121, 97, 98], 2)] =
      GroupPlan.panicked ∧
    genOkB [ColumnIdentifier.name [120, 97, 98],
      ColumnIdentifier.name [120, 97, 122],
      ColumnIdentifier.name [121, 97, 98]] = false := by
  decide

/-- C3: if some bound name occurs in no column, the builder fails with
`MissingColumn` naming an offending bound name (one absent from the row);
conversely if every bound name occurs among the row's columns, the builder
succeeds. -/
theorem claim_C3 (V : Type) (fields : List ColumnIdentifier) (row : Row V)
    (hwf : wfFieldsB fields = true) (hgen : genOkB fields = true)
    (hsb : row.cols.length ≤ sentinel) :
    ((∃ n ∈ namesOf fields, n ∉ row.names) →
      ∃ m, buildColumns fields row = Except.error (ExtractError.MissingColumn m) ∧
        m ∈ namesOf fields ∧ m ∉ row.names) ∧
    ((∀ n ∈ namesOf fields, n ∈ row.names) →
      ∃ ixs, buildColumns fields row = Except.ok ixs) :=
  ⟨buildColumns_error_of_absent hwf hgen hsb,
   buildColumns_ok_of_present hwf hgen hsb⟩

/-- C3 witness: fields `x`, `y` against a row with only column `x` fail with
`MissingColumn "y"`; with both columns present the builder succeeds. -/
theorem claim_C3_witness :
    buildColumns [ColumnIdentifier.name [120], ColumnIdentifier.name [121]]
      (Row.mk [([120], (1 : Nat))]) =
      Except.error (ExtractError.MissingColumn [121]) ∧
    (∃ m, buildColumns [ColumnIdentifier.name [120], ColumnIdentifier.name [121]]
        (Row.mk [([120], (1 : Nat))]) =
        Except.error (ExtractError.MissingColumn m) ∧
      m ∈ namesOf [ColumnIdentifier.name [120], ColumnIdentifier.name [121]] ∧
      m ∉ (Row.mk [([120], (1 : Nat))]).names) ∧
    (∃ ixs, buildColumns [ColumnIdentifier.name [120], ColumnIdentifier.name [121]]
        (Row.mk [([120], (3 : Nat)), ([121], 4)]) = Except.ok ixs) :=
  ⟨by decide,
   (claim_C3 Nat [ColumnIdentifier.name [120], ColumnIdentifier.name [121]]
     (Row.mk [([120], (1 : Nat))]) (by decide) (by decide) (by decide)).1
     (by decide),
   (claim_C3 Nat [ColumnIdentifier.name [120], ColumnIdentifier.name [121]]
     (Row.mk [([120], (3 : Nat)), ([121], 4)]) (by decide) (by decide)
     (by decide)).2 (by decide)⟩

/-- C4: two fields bound to the same name resolve to the same column position,
namely the position of the first (lowest-position) column with that name, and
extraction reads the same value for both.  (Scenario B is the witness.) -/
theorem claim_C4 (V : Type) (fields : List ColumnIdentifier) (row : Row V)
    (hwf : wfFieldsB fields = true) (hgen : genOkB fields = true)
    (hsb : row.cols.length ≤ sentinel) (i j : Nat) (n : BName) (ixs : List Nat)
    (hgi : fields.get? i = some (ColumnIdentifier.name n))
    (hgj : fields.get? j = some (ColumnIdentifier.name n))
    (hok : buildColumns fields row = Except.ok ixs) :
    ixs.get? i = ixs.get? j ∧
    ixs.get? i = findColumn n row.cols ∧
    (extractWithColumns ixs row).get? i = (extractWithColumns ixs row).get? j := by
  obtain ⟨_, hname, _⟩ := buildColumns_ok_props hwf hgen hsb hok
  have h1 := hname i n hgi
  have h2 := hname j n hgj
  refine ⟨h1.trans h2.symm, h1, ?_⟩
  rw [extractWithColumns_get?, extractWithColumns_get?, h1, h2]

/-- C4 witness: Scenario B — row `[("x",1),("x",5)]`, two fields bound to
`"x"` — both resolve to position 0 and both read value 1. -/
theorem claim_C4_witness :
    buildColumns [ColumnIdentifier.name [120], ColumnIdentifier.name [120]]
      (Row.mk [([120], (1 : Nat)), ([120], 5)]) = Except.ok [0, 0] ∧
    extractWithColumns [0, 0] (Row.mk [([120], (1 : Nat)), ([120], 5)]) =
      [some 1, some 1] ∧
    (([0, 0] : List Nat).get? 0 = ([0, 0] : List Nat).get? 1 ∧
      ([0, 0] : List Nat).get? 0 =
        findColumn [120] (Row.mk [([120], (1 : Nat)), ([120], 5)]).cols ∧
      (extractWithColumns [0, 0] (Row.mk [([120], (1 : Nat)), ([120], 5)])).get? 0 =
        (extractWithColumns [0, 0] (Row.mk [([120], (1 : Nat)), ([120], 5)])).get? 1) :=
  ⟨by decide, by decide,
   claim_C4 Nat [ColumnIdentifier.name [120], ColumnIdentifier.name [120]]
     (Row.mk [([120], (1 : Nat)), ([120], 5)]) (by decide) (by decide) (by decide)
     0 1 [120] [0, 0] (by decide) (by decide) (by decide)⟩

/-- C5: the three extraction entry points agree: one-shot extraction equals
extracting with a freshly built index array; the cached entry point with an
empty slot builds from this row, fills the slot, and extracts with it; with a
non-empty slot it extracts directly with the stored array, never invoking the
builder (its result does not depend on `buildColumns` at all). -/
theorem claim_C5 (V : Type) (fields : List ColumnIdentifier) (row : Row V)
    (c c2 : List Nat) :
    (buildColumns fields row = Except.ok c →
      extractOnce fields row = Except.ok (extractWithColumns c row) ∧
      extract fields none row = Except.ok (some c, extractWithColumns c row)) ∧
    extract fields (some c2) row = Except.ok (some c2, extractWithColumns c2 row) :=
  ⟨fun h => ⟨extractOnce_ok h, extract_none_slot_ok h⟩,
   extract_some_slot fields c2 row⟩

/-- C5 witness: concrete agreement of the three entry points on Scenario A's
row. -/
theorem claim_C5_witness :
    (extractOnce [ColumnIdentifier.name [120], ColumnIdentifier.name [121]]
        (Row.mk [([121], (2 : Nat)), ([120], 1)]) =
      Except.ok (extractWithColumns [1, 0]
        (Row.mk [([121], (2 : Nat)), ([120], 1)])) ∧
     extract [ColumnIdentifier.name [120], ColumnIdentifier.name [121]] none
        (Row.mk [([121], (2 : Nat)), ([120], 1)]) =
      Except.ok (some [1, 0], extractWithColumns [1, 0]
        (Row.mk [([121], (2 : Nat)), ([120], 1)]))) ∧
    extract [ColumnIdentifier.name [120], ColumnIdentifier.name [121]]
        (some [0, 1]) (Row.mk [([121], (2 : Nat)), ([120], 1)]) =
      Except.ok (some [0, 1], extractWithColumns [0, 1]
        (Row.mk [([121], (2 : Nat)), ([120], 1)])) :=
  ⟨(claim_C5 Nat [ColumnIdentifier.name [120], ColumnIdentifier.name [121]]
      (Row.mk [([121], (2 : Nat)), ([120], 1)]) [1, 0] [0, 1]).1 (by decide),
   (claim_C5 Nat [ColumnIdentifier.name [120], ColumnIdentifier.name [121]]
      (Row.mk [([121], (2 : Nat)), ([120], 1)]) [1, 0] [0, 1]).2⟩

/-- C6: for the pull-based iterator adapters and the push-based stream
adapters alike, a filled cache is reused unmodified on every element — the
output is exactly one record per source row, in source order, with the same
length — and from an empty cache the matcher builder runs only on the first
row, after which the stored index array is reused unchanged; the stream
variant passes source errors through untouched. -/
theorem claim_C6 (V E : Type) (fields : List ColumnIdentifier) (c c0 : List Nat)
    (r : Row V) (rows : List (Row V)) (items : List (Except E (Row V))) :
    (runExtractIter fields (some c) rows =
      Except.ok (some c, rows.map (fun r2 => extractWithColumns c r2))) ∧
    (buildColumns fields r = Except.ok c0 →
      runExtractIter fields none (r :: rows) =
        Except.ok (some c0, extractWithColumns c0 r ::
          rows.map (fun r2 => extractWithColumns c0 r2))) ∧
    (runExtractStream fields (some c) items =
      Except.ok (some c, items.map (fun it =>
        it.map (fun r2 => extractWithColumns c r2)))) ∧
    (buildColumns fields r = Except.ok c0 →
      runExtractStream fields none (Except.ok r :: items) =
        Except.ok (some c0, Except.ok (extractWithColumns c0 r) ::
          items.map (fun it => it.map (fun r2 => extractWithColumns c0 r2)))) :=
  ⟨runExtractIter_cached fields c rows,
   fun h => runExtractIter_first rows h,
   runExtractStream_cached fields c items,
   fun h => runExtractStream_first items h⟩

/-- C6 witness: Scenario C — 100 rows shaped `[("a",1),("b",2)]`; the cache is
built once on row 0 (index array `[0, 1]`) and reused for rows 1–99. -/
theorem claim_C6_witness :
    buildColumns [ColumnIdentifier.name [97], ColumnIdentifier.name [98]]
      (Row.mk [([97], (1 : Nat)), ([98], 2)]) = Except.ok [0, 1] ∧
    runExtractIter [ColumnIdentifier.name [97], ColumnIdentifier.name [98]] none
      (Row.mk [([97], (1 : Nat)), ([98], 2)] ::
        List.replicate 99 (Row.mk [([97], (1 : Nat)), ([98], 2)])) =
      Except.ok (some [0, 1], List.replicate 100 [some 1, some 2]) :=
  ⟨by decide,
   ((claim_C6 Nat Unit [ColumnIdentifier.name [97], ColumnIdentifier.name [98]]
       [0, 1] [0, 1] (Row.mk [([97], (1 : Nat)), ([98], 2)])
       (List.replicate 99 (Row.mk [([97], (1 : Nat)), ([98], 2)])) []).2.1
     (by decide)).trans (by decide)⟩

/-- C7 counterexample: permuting a row's columns can change the extracted
values.  With duplicated column names (`[("x",5),("x",1)]` versus
`[("x",1),("x",5)]`) a field bound to `"x"` reads 5 in one order and 1 in the
other; and for a field bound to a fixed index, permuting the columns changes
the value at that index.  Both permutations are exhibited concretely. -/
theorem claim_C7_counterexample :
    ([([120], (5 : Nat)), ([120], 1)] : List (BName × Nat)).Perm
      [([120], 1), ([120], 5)] ∧
    extractOnce [ColumnIdentifier.name [120]]
        (Row.mk [([120], (5 : Nat)), ([120], 1)]) ≠
      extractOnce [ColumnIdentifier.name [120]]
        (Row.mk [([120], (1 : Nat)), ([120], 5)]) ∧
    ([([98], (1 : Nat)), ([97], 2)] : List (BName × Nat)).Perm
      [([97], 2), ([98], 1)] ∧
    extractOnce [ColumnIdentifier.index 0]
        (Row.mk [([98], (1 : Nat)), ([97], 2)]) ≠
      extractOnce [ColumnIdentifier.index 0]
        (Row.mk [([97], (2 : Nat)), ([98], 1)]) := by
  decide

/-- C7 (amended): for record types all of whose fields are name-bound, and
rows whose column names are pairwise distinct, extracting from any permutation
of the row's columns yields the same result (values and error behaviour
alike); only the intermediate index array may differ. -/
theorem claim_C7_amended (V : Type) (fields : List ColumnIdentifier)
    (row row' : Row V) (hwf : wfFieldsB fields = true)
    (hgen : genOkB fields = true) (hsb : row.cols.length ≤ sentinel)
    (hnamed : allNamed fields = true) (hperm : row'.cols.Perm row.cols)
    (hnd : row.names.Nodup) :
    extractOnce fields row' = extractOnce fields row :=
  extractOnce_perm hwf hgen hsb hnamed hperm hnd

/-- C7 witness: swapping the two distinct-named columns of a row leaves the
extracted record unchanged. -/
theorem claim_C7_witness :
    extractOnce [ColumnIdentifier.name [120], ColumnIdentifier.name [121]]
        (Row.mk [([121], (2 : Nat)), ([120], 1)]) =
      extractOnce [ColumnIdentifier.name [120], ColumnIdentifier.name [121]]
        (Row.mk [([120], (1 : Nat)), ([121], 2)]) :=
  claim_C7_amended Nat [ColumnIdentifier.name [120], ColumnIdentifier.name [121]]
    (Row.mk [([120], (1 : Nat)), ([121], 2)])
    (Row.mk [([121], (2 : Nat)), ([120], 1)])
    (by decide) (by decide) (by decide) (by decide) (by decide) (by decide)

/-- C8: an index-bound field's entry is always its literal index (no scan is
performed on its behalf: for an all-index binding the builder's result does
not depend on the row at all); a builder failure is always a `MissingColumn`
naming a name-bound field, never an index-bound one, so an out-of-range index
surfaces as the positional decode failure during extraction (Scenario D is the
witness). -/
theorem claim_C8 (V : Type) (fields : List ColumnIdentifier) (row : Row V)
    (hwf : wfFieldsB fields = true) (hgen : genOkB fields = true)
    (hsb : row.cols.length ≤ sentinel) :
    (∀ ixs, buildColumns fields row = Except.ok ixs →
      ∀ i k, fields.get? i = some (ColumnIdentifier.index k) →
        ixs.get? i = some k) ∧
    (∀ e, buildColumns fields row = Except.error e →
      ∃ n, e = ExtractError.MissingColumn n ∧ n ∈ namesOf fields ∧
        n ∉ row.names) ∧
    (namesOf fields = [] → ∀ row2 : Row V,
      buildColumns fields row = buildColumns fields row2) := by
  refine ⟨?_, ?_, ?_⟩
  · intro ixs hok i k hget
    exact (buildColumns_ok_props hwf hgen hsb hok).2.2 i k hget
  · intro e herr
    exact buildColumns_error_props hwf hgen hsb herr
  · intro hno row2
    have h0 : numUniqueNames fields = 0 := by
      unfold numUniqueNames
      rw [hno]
      rfl
    unfold buildColumns
    rw [if_pos h0, if_pos h0]

/-- C8 witness: Scenario D — one field with explicit index 2, a 2-column row:
the builder succeeds with the literal `[2]` and extraction fails positionally
(`none`, the value-decode error), not with `MissingColumn`. -/
theorem claim_C8_witness :
    buildColumns [ColumnIdentifier.index 2]
      (Row.mk [([97], (1 : Nat)), ([98], 2)]) = Except.ok [2] ∧
    extractWithColumns [2] (Row.mk [([97], (1 : Nat)), ([98], 2)]) = [none] ∧
    ((∀ ixs, buildColumns [ColumnIdentifier.index 2]
        (Row.mk [([97], (1 : Nat)), ([98], 2)]) = Except.ok ixs →
      ∀ i k, [ColumnIdentifier.index 2].get? i =
          some (ColumnIdentifier.index k) → ixs.get? i = some k) ∧
     (∀ e, buildColumns [ColumnIdentifier.index 2]
        (Row.mk [([97], (1 : Nat)), ([98], 2)]) = Except.error e →
      ∃ n, e = ExtractError.MissingColumn n ∧
        n ∈ namesOf [ColumnIdentifier.index 2] ∧
        n ∉ (Row.mk [([97], (1 : Nat)), ([98], 2)]).names) ∧
     (namesOf [ColumnIdentifier.index 2] = [] → ∀ row2 : Row Nat,
      buildColumns [ColumnIdentifier.index 2]
        (Row.mk [([97], (1 : Nat)), ([98], 2)]) =
        buildColumns [ColumnIdentifier.index 2] row2)) :=
  ⟨by decide, by decide,
   claim_C8 Nat [ColumnIdentifier.index 2]
     (Row.mk [([97], (1 : Nat)), ([98], 2)]) (by decide) (by decide) (by decide)⟩

/-- C9: every index array the builder returns successfully contains no
leftover sentinel: each name-bound field's entry is an actual position of a
column of the row whose name equals the field's bound name, hence strictly
below the row's column count. -/
theorem claim_C9 (V : Type) (fields : List ColumnIdentifier) (row : Row V)
    (hwf : wfFieldsB fields = true) (hgen : genOkB fields = true)
    (hsb : row.cols.length ≤ sentinel) (ixs : List Nat)
    (hok : buildColumns fields row = Except.ok ixs) :
    ∀ i n, fields.get? i = some (ColumnIdentifier.name n) →
      ∃ j, ixs.get? i = some j ∧ j < row.cols.length ∧
        (row.cols.get? j).map Prod.fst = some n := by
  intro i n hget
  obtain ⟨_, hname, _⟩ := buildColumns_ok_props hwf hgen hsb hok
  have h1 := hname i n hget
  cases hf : findColumn n row.cols with
  | none =>
    have habs : n ∉ row.names := findColumn_eq_none.1 hf
    obtain ⟨he, ho⟩ := buildColumns_spec fields row hwf hgen hsb
    cases hfm : firstMissing fields row with
    | some m =>
      rw [he m hfm] at hok
      exact Except.noConfusion hok
    | none =>
      exact absurd ((firstMissing_none_iff fields row).1 hfm n
        (namesOf_mem_of_get? hget)) habs
  | some j =>
    rw [hf] at h1
    obtain ⟨hjl, hjn⟩ := findColumn_spec hf
    exact ⟨j, h1, hjl, hjn⟩

/-- C9 witness: on Scenario A's data every name-bound entry of the returned
index array is a genuine matching column position. -/
theorem claim_C9_witness :
    ∃ j, ([1, 0] : List Nat).get? 0 = some j ∧
      j < (Row.mk [([121], (2 : Nat)), ([120], 1)]).cols.length ∧
      ((Row.mk [([121], (2 : Nat)), ([120], 1)]).cols.get? j).map Prod.fst =
        some [120] :=
  claim_C9 Nat [ColumnIdentifier.name [120], ColumnIdentifier.name [121]]
    (Row.mk [([121], (2 : Nat)), ([120], 1)]) (by decide) (by decide) (by decide)
    [1, 0] (by decide) 0 [120] (by decide)

/-- C10: a length group with a single name, or whose name length is exactly 1,
2, 4 or 8 bytes, never searches for or uses a discriminator window — its body
is the direct full-name equality fallback — and a discriminator window is
produced only for groups of two or more names of other lengths. -/
theorem claim_C10 (len : Nat) (g : List (BName × Nat)) (hne : g ≠ []) :
    ((g.length = 1 ∨ len = 1 ∨ len = 2 ∨ len = 4 ∨ len = 8) →
      planGroup len g = GroupPlan.fallback ∧
      ∀ s, groupBody len g s = fallbackDispatch g s) ∧
    (∀ st w, planGroup len g = GroupPlan.window st w →
      2 ≤ g.length ∧ ¬(len = 1 ∨ len = 2 ∨ len = 4 ∨ len = 8)) := by
  constructor
  · intro hc
    have hplan : planGroup len g = GroupPlan.fallback := by
      unfold planGroup
      rw [if_pos hc]
    refine ⟨hplan, ?_⟩
    intro s
    simp only [groupBody, hplan]
  · intro st w hw
    unfold planGroup at hw
    by_cases hc : g.length = 1 ∨ len = 1 ∨ len = 2 ∨ len = 4 ∨ len = 8
    · rw [if_pos hc] at hw
      exact absurd hw (by simp)
    · push_neg at hc
      obtain ⟨hl1, hlen1, hlen2, hlen4, hlen8⟩ := hc
      have hl0 : g.length ≠ 0 := fun h => hne (List.length_eq_zero.1 h)
      refine ⟨by omega, ?_⟩
      rintro (h | h | h | h)
      · exact hlen1 h
      · exact hlen2 h
      · exact hlen4 h
      · exact hlen8 h

/-- C10 witness: the two length-1 names "x" and "y" form a group dispatched by
direct equality, with no window. -/
theorem claim_C10_witness :
    planGroup 1 [([120], 0), ([121], 1)] = GroupPlan.fallback ∧
    ∀ s, groupBody 1 [([120], 0), ([121], 1)] s =
      fallbackDispatch [([120], 0), ([121], 1)] s :=
  (claim_C10 1 [([120], 0), ([121], 1)] (by decide)).1 (Or.inr (Or.inl rfl))

end TPE
